import Mathlib

/-!
# Verification of the Cuepid RAG pipeline

Shallow embedding of the book-ingestion chunker (`lib/bookProcessor`:
`chunkText`, `detectChapters`, `processBookFile`), the context
formatter / prompt augmenter (`lib/bookRAG`: `formatBookContext`,
`queryWithBookKnowledge`), the diversity-aware retriever
(`lib/diverseRAG`: `retrieveDiverseBookKnowledge`) and the attribution
merge of the analysis route (`app/api/analyze/route.ts`).

JavaScript strings are modelled as Lean `String` (a list of characters;
`.length` counts characters, which agrees with JS UTF-16 lengths on the
ASCII inputs used here), JS numbers used as similarity scores are
modelled as `ℚ`, and the insertion-ordered JS `Map` is modelled as an
association list kept in first-insertion order.
-/

set_option autoImplicit false
set_option maxRecDepth 8000

namespace Cuepid

/-! ## JavaScript string primitives -/

/-- The characters matched by the JS regex class `\s` (ASCII fragment). -/
def jsWs (c : Char) : Bool :=
  c == ' ' || c == '\t' || c == '\n' || c == '\r' || c == '\x0b' || c == '\x0c'

/-- Character-list core of `String.prototype.trim`. -/
def trimLeftChars (l : List Char) : List Char :=
  l.dropWhile jsWs

/-- Character-list core of the right half of `String.prototype.trim`. -/
def trimRightChars (l : List Char) : List Char :=
  (l.reverse.dropWhile jsWs).reverse

/-- `String.prototype.trim`. -/
def jsTrim (s : String) : String :=
  ⟨trimRightChars (trimLeftChars s.data)⟩

/-- Worker for `split(/\s+/)`: `cur` is the reversed current piece, the
flag records whether we are inside an already-emitted whitespace run. -/
def splitWsGo : List Char → List Char → Bool → List String
  | [], cur, _ => [⟨cur.reverse⟩]
  | c :: rest, cur, inRun =>
    if jsWs c then
      if inRun then splitWsGo rest cur true
      else ⟨cur.reverse⟩ :: splitWsGo rest [] true
    else splitWsGo rest (c :: cur) false

/-- `s.split(/\s+/)`: pieces between maximal whitespace runs (with the
JS edge cases: a leading run yields a leading `""`, a trailing run a
trailing `""`, and `"".split` yields `[""]`). -/
def splitWsStr (s : String) : List String :=
  splitWsGo s.data [] false

/-- Worker for `split(/\n\n+/)`.  `cur` is the reversed current piece,
`pend` records a single not-yet-classified newline, `inSep` that we are
inside a separator run whose piece has already been emitted. -/
def splitParasGo : List Char → List Char → Bool → Bool → List String
  | [], cur, pend, _ => [⟨(if pend then '\n' :: cur else cur).reverse⟩]
  | c :: rest, cur, pend, inSep =>
    if inSep then
      if c = '\n' then splitParasGo rest cur false true
      else splitParasGo rest [c] false false
    else if pend then
      if c = '\n' then ⟨cur.reverse⟩ :: splitParasGo rest [] false true
      else splitParasGo rest (c :: '\n' :: cur) false false
    else
      if c = '\n' then splitParasGo rest cur true false
      else splitParasGo rest (c :: cur) false false

/-- `text.split(/\n\n+/)`: pieces between maximal runs of at least two
newlines; a single newline stays inside its piece. -/
def splitParas (s : String) : List String :=
  splitParasGo s.data [] false false

/-- Worker for `text.replace(/\r\n/g, '\n')`; the flag records a
pending carriage return. -/
def replaceCRLFGo : List Char → Bool → List Char
  | [], pend => if pend then ['\r'] else []
  | c :: rest, pend =>
    if pend then
      if c = '\n' then '\n' :: replaceCRLFGo rest false
      else if c = '\r' then '\r' :: replaceCRLFGo rest true
      else '\r' :: c :: replaceCRLFGo rest false
    else
      if c = '\r' then replaceCRLFGo rest true
      else c :: replaceCRLFGo rest false

/-- `text.replace(/\r\n/g, '\n')`. -/
def replaceCRLF (l : List Char) : List Char :=
  replaceCRLFGo l false

/-- Worker for `text.replace(/\n{3,}/g, '\n\n')`: `n` counts the
newlines already kept in the current run (capped at 2). -/
def collapseNlGo : List Char → Nat → List Char
  | [], _ => []
  | c :: rest, n =>
    if c = '\n' then
      if n ≥ 2 then collapseNlGo rest n else '\n' :: collapseNlGo rest (n + 1)
    else c :: collapseNlGo rest 0

/-- Character-list core of the JS `text.split('\n')` used by
`detectChapters`. -/
def splitLinesGo : List Char → List Char → List String
  | [], cur => [⟨cur.reverse⟩]
  | c :: rest, cur =>
    if c = '\n' then ⟨cur.reverse⟩ :: splitLinesGo rest []
    else splitLinesGo rest (c :: cur)

/-- `text.split('\n')`. -/
def splitLines (s : String) : List String :=
  splitLinesGo s.data []

/-- Is the first list a prefix of the second (character lists)? -/
def isPrefixChars : List Char → List Char → Bool
  | [], _ => true
  | _ :: _, [] => false
  | a :: as, b :: bs => a == b && isPrefixChars as bs

/-- Character-list core of `String.prototype.includes`. -/
def containsChars (pat : List Char) : List Char → Bool
  | [] => isPrefixChars pat []
  | c :: rest => isPrefixChars pat (c :: rest) || containsChars pat rest

/-- `s.includes(pat)`. -/
def containsStr (s pat : String) : Bool :=
  containsChars pat.data s.data

/-- `String.prototype.toLowerCase` (ASCII model). -/
def strLower (s : String) : String :=
  ⟨s.data.map Char.toLower⟩

/-! ## The chunker (`chunkText`, source `lib/bookProcessor.ts`) -/

/-- JS `arr.slice(-k)`.  Note the quirk: `slice(-0)` is `slice(0)`,
the whole array. -/
def jsSliceNeg (k : Nat) (l : List String) : List String :=
  if k = 0 then l else l.drop (l.length - k)

/-- The paragraph loop of `chunkText`.  `cur` is `currentChunk` (a list
of paragraph strings), `cnt` is `currentWordCount`.  Returns each chunk
as its list of paragraph strings (the source joins them with
`'\n\n'`, see `chunkText` below). -/
def chunkLoop (chunkSize overlap : Nat) : List String → List String → Nat → List (List String)
  | [], cur, _ => if cur.isEmpty then [] else [cur]
  | p :: rest, cur, cnt =>
    let wc := (splitWsStr p).length
    if cnt + wc > chunkSize && !cur.isEmpty then
      let ow := min overlap cnt
      let lastP := cur.getLastD ""
      let ovText := String.intercalate " " (jsSliceNeg ow (splitWsStr lastP))
      cur :: chunkLoop chunkSize overlap rest [ovText, p] (ow + wc)
    else
      chunkLoop chunkSize overlap rest (cur ++ [p]) (cnt + wc)

/-- The paragraph-level view of `chunkText`: split into paragraphs,
trim, drop empties, then run the greedy loop. -/
def chunkParts (text : String) (chunkSize overlap : Nat) : List (List String) :=
  chunkLoop chunkSize overlap (((splitParas text).map jsTrim).filter (· ≠ "")) [] 0

/-- `chunkText(text, chunkSize, overlap)`: each produced chunk's
`content` string (`currentChunk.join('\n\n')`). -/
def chunkText (text : String) (chunkSize overlap : Nat) : List String :=
  (chunkParts text chunkSize overlap).map (String.intercalate "\n\n")

/-! ## Generic lemmas about the string primitives -/

theorem isPrefixChars_iff (p : List Char) : ∀ l : List Char,
    isPrefixChars p l = true ↔ ∃ t, l = p ++ t := by
  induction p with
  | nil => intro l; simp [isPrefixChars]
  | cons a as ih =>
    intro l
    cases l with
    | nil =>
      simp only [isPrefixChars, List.cons_append]
      constructor
      · intro h; cases h
      · rintro ⟨t, h⟩; cases h
    | cons b bs =>
      simp only [isPrefixChars, Bool.and_eq_true, beq_iff_eq, ih, List.cons_append]
      constructor
      · rintro ⟨rfl, t, rfl⟩; exact ⟨t, rfl⟩
      · rintro ⟨t, h⟩
        injection h with h1 h2
        exact ⟨h1.symm, t, h2⟩

theorem containsChars_iff (p : List Char) : ∀ l : List Char,
    containsChars p l = true ↔ ∃ u v, l = u ++ p ++ v := by
  intro l
  induction l with
  | nil =>
    simp only [containsChars, isPrefixChars_iff]
    constructor
    · rintro ⟨t, h⟩
      exact ⟨[], t, by simpa using h⟩
    · rintro ⟨u, v, h⟩
      rw [List.append_assoc] at h
      rcases List.append_eq_nil.mp h.symm with ⟨rfl, h2⟩
      exact ⟨v, by simpa using h⟩
  | cons c cs ih =>
    simp only [containsChars, Bool.or_eq_true, isPrefixChars_iff, ih]
    constructor
    · rintro (⟨t, ht⟩ | ⟨u, v, huv⟩)
      · exact ⟨[], t, by simpa using ht⟩
      · exact ⟨c :: u, v, by simp [huv]⟩
    · rintro ⟨u, v, huv⟩
      cases u with
      | nil => exact Or.inl ⟨v, by simpa using huv⟩
      | cons x xs =>
        injection huv with h1 h2
        exact Or.inr ⟨xs, v, by simpa using h2⟩

theorem containsChars_eq_false_of_absent {p l : List Char} {ch : Char}
    (hp : ch ∈ p) (hl : ch ∉ l) : containsChars p l = false := by
  by_contra h
  rcases (containsChars_iff p l).mp (by simpa using h) with ⟨u, v, rfl⟩
  exact hl (by simp [hp])

theorem containsChars_of_pref {p l : List Char} (h : ∃ t, l = p ++ t) :
    containsChars p l = true := by
  cases l with
  | nil =>
    rcases h with ⟨t, ht⟩
    rcases List.append_eq_nil.mp ht.symm with ⟨rfl, rfl⟩
    simp [containsChars, isPrefixChars]
  | cons c cs => simp [containsChars, isPrefixChars_iff, h]

/-- A paragraph made of `n` copies of the one-character word `c`
separated by single spaces. -/
def repWord (c : Char) : Nat → List Char
  | 0 => []
  | n + 1 => if n = 0 then [c] else c :: ' ' :: repWord c n

theorem repWord_cons (c : Char) (n : Nat) : ∃ t, repWord c (n + 1) = c :: t := by
  cases n with
  | zero => exact ⟨[], by simp [repWord]⟩
  | succ m => exact ⟨' ' :: repWord c (m + 1), by simp [repWord]⟩

theorem mem_repWord (c : Char) : ∀ n x, x ∈ repWord c n → x = c ∨ x = ' ' := by
  intro n
  induction n with
  | zero => intro x hx; simp [repWord] at hx
  | succ m ih =>
    intro x hx
    by_cases hm : m = 0
    · subst hm; simp [repWord] at hx; exact Or.inl hx
    · simp [repWord, hm] at hx
      rcases hx with rfl | rfl | hx
      · exact Or.inl rfl
      · exact Or.inr rfl
      · exact ih x hx

theorem splitWsGo_repWord_true (c : Char) (hc : jsWs c = false) : ∀ n,
    splitWsGo (repWord c (n + 1)) [] true = List.replicate (n + 1) (⟨[c]⟩ : String) := by
  intro n
  induction n with
  | zero => simp [repWord, splitWsGo, hc]
  | succ m ih =>
    have hrw : repWord c (m + 2) = c :: ' ' :: repWord c (m + 1) := by simp [repWord]
    rw [hrw]
    simp only [splitWsGo, hc, Bool.false_eq_true, if_false, if_true]
    have hsp : jsWs ' ' = true := by decide
    simp only [splitWsGo, hsp, if_true, ih]
    rfl

theorem splitWsGo_repWord (c : Char) (hc : jsWs c = false) (n : Nat) :
    splitWsGo (repWord c (n + 1)) [] false = List.replicate (n + 1) (⟨[c]⟩ : String) := by
  cases n with
  | zero => simp [repWord, splitWsGo, hc]
  | succ m =>
    have hrw : repWord c (m + 2) = c :: ' ' :: repWord c (m + 1) := by simp [repWord]
    rw [hrw]
    simp only [splitWsGo, hc, Bool.false_eq_true, if_false]
    have hsp : jsWs ' ' = true := by decide
    simp only [splitWsGo, hsp, if_true, if_false, splitWsGo_repWord_true c hc m]
    rfl

theorem splitWsStr_repWord (c : Char) (hc : jsWs c = false) (n : Nat) :
    splitWsStr ⟨repWord c (n + 1)⟩ = List.replicate (n + 1) (⟨[c]⟩ : String) :=
  splitWsGo_repWord c hc n

theorem splitParasGo_acc (l : List Char) : ∀ a cur : List Char, (∀ x ∈ a, x ≠ '\n') →
    splitParasGo (a ++ l) cur false false = splitParasGo l (a.reverse ++ cur) false false := by
  intro a
  induction a with
  | nil => intro cur _; simp
  | cons c a' ih =>
    intro cur hmem
    have hc : c ≠ '\n' := hmem c (by simp)
    simp only [List.cons_append, splitParasGo, hc, if_false, Bool.false_eq_true, List.append_eq]
    rw [ih (c :: cur) (fun x hx => hmem x (by simp [hx]))]
    simp

theorem splitParasGo_sep (rest cur : List Char) :
    splitParasGo ('\n' :: '\n' :: rest) cur false false =
      ⟨cur.reverse⟩ :: splitParasGo rest [] false true := by
  simp [splitParasGo]

theorem splitParasGo_sep_exit {c : Char} (hc : c ≠ '\n') (rest cur : List Char) :
    splitParasGo (c :: rest) cur false true = splitParasGo rest [c] false false := by
  simp [splitParasGo, hc]

theorem splitLinesGo_acc (l : List Char) : ∀ a cur : List Char, (∀ x ∈ a, x ≠ '\n') →
    splitLinesGo (a ++ l) cur = splitLinesGo l (a.reverse ++ cur) := by
  intro a
  induction a with
  | nil => intro cur _; simp
  | cons c a' ih =>
    intro cur hmem
    have hc : c ≠ '\n' := hmem c (by simp)
    simp only [List.cons_append, splitLinesGo, hc, if_false, List.append_eq]
    rw [ih (c :: cur) (fun x hx => hmem x (by simp [hx]))]
    simp

theorem splitLinesGo_nl (rest cur : List Char) :
    splitLinesGo ('\n' :: rest) cur = ⟨cur.reverse⟩ :: splitLinesGo rest [] := by
  simp [splitLinesGo]

theorem trimLeftChars_cons {c : Char} (hc : jsWs c = false) (l : List Char) :
    trimLeftChars (c :: l) = c :: l := by
  simp [trimLeftChars, List.dropWhile_cons, hc]

theorem trimRightChars_append (a b : List Char) (h : ∃ ch ∈ b, jsWs ch = false) :
    trimRightChars (a ++ b) = a ++ trimRightChars b := by
  unfold trimRightChars
  rw [List.reverse_append, List.dropWhile_append]
  rcases h with ⟨ch, hmem, hch⟩
  have hne : b.reverse.dropWhile jsWs ≠ [] := by
    intro hnil
    have := List.dropWhile_eq_nil_iff.mp hnil ch (by simpa using hmem)
    simp [hch] at this
  have : (b.reverse.dropWhile jsWs).isEmpty = false := by
    simpa [List.isEmpty_iff] using hne
  simp [this]

theorem trimRightChars_eq_self {l : List Char} (h : ∃ c t, l.reverse = c :: t ∧ jsWs c = false) :
    trimRightChars l = l := by
  rcases h with ⟨c, t, hrev, hc⟩
  unfold trimRightChars
  rw [hrev, List.dropWhile_cons]
  simp only [hc, Bool.false_eq_true, if_false]
  rw [← hrev, List.reverse_reverse]

theorem jsTrim_eq_self (s : String)
    (h1 : ∃ c t, s.data = c :: t ∧ jsWs c = false)
    (h2 : ∃ c t, s.data.reverse = c :: t ∧ jsWs c = false) : jsTrim s = s := by
  rcases h1 with ⟨c, t, hdata, hc⟩
  have hleft : trimLeftChars s.data = s.data := by
    rw [hdata]; exact trimLeftChars_cons hc t
  have : jsTrim s = ⟨trimRightChars s.data⟩ := by
    simp [jsTrim, hleft]
  rw [this, trimRightChars_eq_self h2]

theorem repWord_reverse_cons (c : Char) : ∀ n, ∃ t, (repWord c (n + 1)).reverse = c :: t := by
  intro n
  induction n with
  | zero => exact ⟨[], by simp [repWord]⟩
  | succ m ih =>
    rcases ih with ⟨t, ht⟩
    refine ⟨t ++ [' ', c], ?_⟩
    have hrw : repWord c (m + 2) = c :: ' ' :: repWord c (m + 1) := by simp [repWord]
    rw [hrw]
    simp [ht]

theorem map_toLower_repWord (c : Char) : ∀ n,
    (repWord c n).map Char.toLower = repWord c.toLower n := by
  intro n
  induction n with
  | zero => simp [repWord]
  | succ m ih =>
    by_cases hm : m = 0
    · subst hm; simp [repWord]
    · have h1 : repWord c (m + 1) = c :: ' ' :: repWord c m := by simp [repWord, hm]
      have h2 : repWord c.toLower (m + 1) = c.toLower :: ' ' :: repWord c.toLower m := by
        simp [repWord, hm]
      rw [h1, h2, List.map_cons, List.map_cons, ih]
      simp [show Char.toLower ' ' = ' ' from by decide]

theorem replaceCRLFGo_eq_self : ∀ l : List Char, (∀ x ∈ l, x ≠ '\r') →
    replaceCRLFGo l false = l := by
  intro l
  induction l with
  | nil => intro _; simp [replaceCRLFGo]
  | cons c rest ih =>
    intro hmem
    have hc : c ≠ '\r' := hmem c (by simp)
    simp only [replaceCRLFGo, hc, if_false, Bool.false_eq_true]
    rw [ih (fun x hx => hmem x (by simp [hx]))]

theorem collapseNlGo_acc (l : List Char) : ∀ (a : List Char) n, (∀ x ∈ a, x ≠ '\n') → a ≠ [] →
    collapseNlGo (a ++ l) n = a ++ collapseNlGo l 0 := by
  intro a
  induction a with
  | nil => intro n _ hne; exact absurd rfl hne
  | cons c a' ih =>
    intro n hmem _
    have hc : c ≠ '\n' := hmem c (by simp)
    simp only [List.cons_append, collapseNlGo, hc, if_false]
    cases a' with
    | nil => simp
    | cons d a'' =>
      have := ih 0 (fun x hx => hmem x (by simp [hx])) (by simp)
      simp only [List.append_eq] at this ⊢
      rw [this]

theorem collapseNlGo_nl2 (l : List Char) :
    collapseNlGo ('\n' :: '\n' :: l) 0 = '\n' :: '\n' :: collapseNlGo l 2 := by
  simp [collapseNlGo]

theorem collapseNlGo_exit {c : Char} (hc : c ≠ '\n') (l : List Char) (n : Nat) :
    collapseNlGo (c :: l) n = c :: collapseNlGo l 0 := by
  simp [collapseNlGo, hc]

theorem repWord_no_nl {c : Char} (hc : c ≠ '\n') (n : Nat) :
    ∀ x ∈ repWord c n, x ≠ '\n' := by
  intro x hx
  rcases mem_repWord c n x hx with rfl | rfl
  · exact hc
  · decide

/-- A word paragraph followed by a blank line: one piece of the split. -/
theorem splitParasGo_word_piece {c : Char} (hc : c ≠ '\n') (t rest : List Char)
    (hno : ∀ x ∈ t, x ≠ '\n') :
    splitParasGo ((c :: t) ++ '\n' :: '\n' :: rest) [] false false =
      ⟨c :: t⟩ :: splitParasGo rest [] false true := by
  have h1 := splitParasGo_acc ('\n' :: '\n' :: rest) (c :: t) []
    (by intro x hx; rcases List.mem_cons.mp hx with rfl | hx; exact hc; exact hno x hx)
  rw [h1, List.append_nil, splitParasGo_sep, List.reverse_reverse]

/-- A word paragraph at the end of the text: the final piece. -/
theorem splitParasGo_word_last {c : Char} (hc : c ≠ '\n') (t : List Char)
    (hno : ∀ x ∈ t, x ≠ '\n') :
    splitParasGo (c :: t) [] false false = [⟨c :: t⟩] := by
  have h1 := splitParasGo_acc [] (c :: t) []
    (by intro x hx; rcases List.mem_cons.mp hx with rfl | hx; exact hc; exact hno x hx)
  simp only [List.append_nil] at h1
  rw [h1]
  simp [splitParasGo]

/-- Variants entered in the separator state. -/
theorem splitParasGo_word_piece_true {c : Char} (hc : c ≠ '\n') (t rest : List Char)
    (hno : ∀ x ∈ t, x ≠ '\n') :
    splitParasGo ((c :: t) ++ '\n' :: '\n' :: rest) [] false true =
      ⟨c :: t⟩ :: splitParasGo rest [] false true := by
  rw [List.cons_append, splitParasGo_sep_exit hc]
  have h1 := splitParasGo_acc ('\n' :: '\n' :: rest) t [c] hno
  rw [h1, splitParasGo_sep]
  simp

theorem splitParasGo_word_last_true {c : Char} (hc : c ≠ '\n') (t : List Char)
    (hno : ∀ x ∈ t, x ≠ '\n') :
    splitParasGo (c :: t) [] false true = [⟨c :: t⟩] := by
  rw [splitParasGo_sep_exit hc]
  have h1 := splitParasGo_acc [] t [c] hno
  simp only [List.append_nil] at h1
  rw [h1]
  simp [splitParasGo]

/-! ## Evaluation lemmas for `chunkLoop` -/

theorem chunkLoop_nil (chunkSize overlap : Nat) (cur : List String) (cnt : Nat) :
    chunkLoop chunkSize overlap [] cur cnt = if cur.isEmpty then [] else [cur] := rfl

theorem chunkLoop_flush (chunkSize overlap : Nat) (p : String) (rest cur : List String)
    (cnt : Nat) (h : cnt + (splitWsStr p).length > chunkSize) (hcur : cur ≠ []) :
    chunkLoop chunkSize overlap (p :: rest) cur cnt =
      cur :: chunkLoop chunkSize overlap rest
        [String.intercalate " " (jsSliceNeg (min overlap cnt) (splitWsStr (cur.getLastD ""))), p]
        (min overlap cnt + (splitWsStr p).length) := by
  have hne : cur.isEmpty = false := by simpa [List.isEmpty_iff] using hcur
  simp [chunkLoop, hne, h]

theorem chunkLoop_push (chunkSize overlap : Nat) (p : String) (rest cur : List String)
    (cnt : Nat) (h : ¬(cnt + (splitWsStr p).length > chunkSize ∧ cur ≠ [])) :
    chunkLoop chunkSize overlap (p :: rest) cur cnt =
      chunkLoop chunkSize overlap rest (cur ++ [p]) (cnt + (splitWsStr p).length) := by
  rcases Decidable.em (cnt + (splitWsStr p).length > chunkSize) with hgt | hgt
  · have hcur : cur = [] := by
      by_contra hne
      exact h ⟨hgt, hne⟩
    subst hcur
    simp [chunkLoop, hgt]
  · simp [chunkLoop, hgt]

/-! ## The C1 scenario: a 600 / 600 / 100-word document -/

/-- Paragraph 1: 600 one-letter words. -/
def paraA : String := ⟨repWord 'a' 600⟩

/-- Paragraph 2: 600 one-letter words. -/
def paraB : String := ⟨repWord 'b' 600⟩

/-- Paragraph 3: 100 one-letter words. -/
def paraC : String := ⟨repWord 'c' 100⟩

/-- The 3-paragraph document of 600, 600 and 100 words. -/
def docC1 : String :=
  ⟨repWord 'a' 600 ++ '\n' :: '\n' :: (repWord 'b' 600 ++ '\n' :: '\n' :: repWord 'c' 100)⟩

/-- The 50-word overlap taken from paragraph 1's tail. -/
def ovA : String := String.intercalate " " (List.replicate 50 "a")

/-- The 50-word overlap taken from paragraph 2's tail. -/
def ovB : String := String.intercalate " " (List.replicate 50 "b")

theorem splitWsStr_paraA : splitWsStr paraA = List.replicate 600 "a" :=
  splitWsStr_repWord 'a' (by decide) 599

theorem splitWsStr_paraB : splitWsStr paraB = List.replicate 600 "b" :=
  splitWsStr_repWord 'b' (by decide) 599

theorem splitWsStr_paraC : splitWsStr paraC = List.replicate 100 "c" :=
  splitWsStr_repWord 'c' (by decide) 99

theorem repWord_cons_lit {c : Char} {n m : Nat} (h : n = m + 1) : ∃ t, repWord c n = c :: t := by
  subst h; exact repWord_cons c m

theorem splitParas_docC1 : splitParas docC1 = [paraA, paraB, paraC] := by
  rcases repWord_cons_lit (c := 'a') (show (600 : Nat) = 599 + 1 by norm_num) with ⟨ta, hta⟩
  rcases repWord_cons_lit (c := 'b') (show (600 : Nat) = 599 + 1 by norm_num) with ⟨tb, htb⟩
  rcases repWord_cons_lit (c := 'c') (show (100 : Nat) = 99 + 1 by norm_num) with ⟨tc, htc⟩
  have hnoA : ∀ x ∈ ta, x ≠ '\n' := fun x hx =>
    repWord_no_nl (c := 'a') (by decide) 600 x (by rw [hta]; exact List.mem_cons_of_mem _ hx)
  have hnoB : ∀ x ∈ tb, x ≠ '\n' := fun x hx =>
    repWord_no_nl (c := 'b') (by decide) 600 x (by rw [htb]; exact List.mem_cons_of_mem _ hx)
  have hnoC : ∀ x ∈ tc, x ≠ '\n' := fun x hx =>
    repWord_no_nl (c := 'c') (by decide) 100 x (by rw [htc]; exact List.mem_cons_of_mem _ hx)
  have hd : docC1.data =
      repWord 'a' 600 ++ '\n' :: '\n' :: (repWord 'b' 600 ++ '\n' :: '\n' :: repWord 'c' 100) := rfl
  rw [hta, htb, htc] at hd
  unfold splitParas
  rw [hd]
  rw [splitParasGo_word_piece (by decide) ta _ hnoA]
  rw [splitParasGo_word_piece_true (by decide) tb _ hnoB]
  rw [splitParasGo_word_last_true (by decide) tc hnoC]
  simp [paraA, paraB, paraC, hta, htb, htc]

theorem jsTrim_repWord {c : Char} (hc : jsWs c = false) {n m : Nat} (h : n = m + 1) :
    jsTrim ⟨repWord c n⟩ = ⟨repWord c n⟩ := by
  subst h
  apply jsTrim_eq_self
  · rcases repWord_cons c m with ⟨t, ht⟩
    exact ⟨c, t, by rw [show (⟨repWord c (m + 1)⟩ : String).data = repWord c (m + 1) from rfl, ht], hc⟩
  · rcases repWord_reverse_cons c m with ⟨t, ht⟩
    exact ⟨c, t, by rw [show (⟨repWord c (m + 1)⟩ : String).data = repWord c (m + 1) from rfl, ht], hc⟩

theorem repWord_ne_empty {c : Char} {n m : Nat} (h : n = m + 1) :
    (⟨repWord c n⟩ : String) ≠ ("" : String) := by
  subst h
  rcases repWord_cons c m with ⟨t, ht⟩
  rw [ht]
  intro hcontra
  have : c :: t = ([] : List Char) := congrArg String.data hcontra
  cases this

theorem intercalate_single (s a : String) : String.intercalate s [a] = a := rfl

theorem intercalate_pair (s a b : String) : String.intercalate s [a, b] = a ++ s ++ b := rfl

theorem chunkParts_docC1 : chunkParts docC1 500 50 = [[paraA], [ovA, paraB], [ovB, paraC]] := by
  have hwA : splitWsStr paraA = List.replicate 600 "a" := splitWsStr_paraA
  have hwB : splitWsStr paraB = List.replicate 600 "b" := splitWsStr_paraB
  have hwC : splitWsStr paraC = List.replicate 100 "c" := splitWsStr_paraC
  have htrA : jsTrim paraA = paraA := jsTrim_repWord (by decide) (show (600 : Nat) = 599 + 1 by norm_num)
  have htrB : jsTrim paraB = paraB := jsTrim_repWord (by decide) (show (600 : Nat) = 599 + 1 by norm_num)
  have htrC : jsTrim paraC = paraC := jsTrim_repWord (by decide) (show (100 : Nat) = 99 + 1 by norm_num)
  have hneA : paraA ≠ "" := repWord_ne_empty (show (600 : Nat) = 599 + 1 by norm_num)
  have hneB : paraB ≠ "" := repWord_ne_empty (show (600 : Nat) = 599 + 1 by norm_num)
  have hneC : paraC ≠ "" := repWord_ne_empty (show (100 : Nat) = 99 + 1 by norm_num)
  have hparas : ((splitParas docC1).map jsTrim).filter (· ≠ "") = [paraA, paraB, paraC] := by
    rw [splitParas_docC1]
    simp [htrA, htrB, htrC, List.filter_cons, hneA, hneB, hneC]
  unfold chunkParts
  rw [hparas]
  rw [chunkLoop_push 500 50 paraA [paraB, paraC] [] 0 (by simp)]
  simp only [List.nil_append]
  rw [show (0 + (splitWsStr paraA).length) = 600 by
    rw [hwA, List.length_replicate]]
  rw [chunkLoop_flush 500 50 paraB [paraC] [paraA] 600
    (by rw [hwB, List.length_replicate]; norm_num) (by simp)]
  rw [show String.intercalate " " (jsSliceNeg (min 50 600) (splitWsStr ([paraA].getLastD ""))) = ovA by
    rw [show [paraA].getLastD "" = paraA from rfl, hwA]
    rw [show min (50 : Nat) 600 = 50 by norm_num]
    rw [show jsSliceNeg 50 (List.replicate 600 "a") = List.replicate 50 "a" by
      unfold jsSliceNeg
      rw [List.length_replicate]
      norm_num [List.drop_replicate]]
    rfl]
  rw [show (min 50 600 + (splitWsStr paraB).length) = 650 by
    rw [hwB, List.length_replicate]; norm_num]
  rw [chunkLoop_flush 500 50 paraC [] [ovA, paraB] 650
    (by rw [hwC, List.length_replicate]; norm_num) (by simp)]
  rw [show String.intercalate " " (jsSliceNeg (min 50 650) (splitWsStr ([ovA, paraB].getLastD ""))) = ovB by
    rw [show [ovA, paraB].getLastD "" = paraB from rfl, hwB]
    rw [show min (50 : Nat) 650 = 50 by norm_num]
    rw [show jsSliceNeg 50 (List.replicate 600 "b") = List.replicate 50 "b" by
      unfold jsSliceNeg
      rw [List.length_replicate]
      norm_num [List.drop_replicate]]
    rfl]
  rw [chunkLoop_nil]
  simp

/-- **C1, counterexample.**  On the 3-paragraph document of 600, 600
and 100 words, `chunkText` with `chunkSize = 500` and `overlap = 50`
yields 3 chunks, not the 2 chunks the claim states: the greedy trigger
`currentWordCount + wordCount > chunkSize` fires again on paragraph 3
because the running count is already `50 + 600 = 650 > 500` before
paragraph 3 is considered. -/
theorem C1_counterexample :
    (splitWsStr paraA).length = 600 ∧ (splitWsStr paraB).length = 600 ∧
    (splitWsStr paraC).length = 100 ∧
    splitParas docC1 = [paraA, paraB, paraC] ∧
    (chunkText docC1 500 50).length ≠ 2 := by
  refine ⟨?_, ?_, ?_, splitParas_docC1, ?_⟩
  · rw [splitWsStr_paraA, List.length_replicate]
  · rw [splitWsStr_paraB, List.length_replicate]
  · rw [splitWsStr_paraC, List.length_replicate]
  · rw [chunkText, chunkParts_docC1]
    norm_num

/-- **C1, amended.**  Running the chunker with `chunkSize = 500` and
`overlap = 50` on a document of exactly three paragraphs of 600, 600
and 100 words yields exactly 3 chunks: chunk 1 is paragraph 1 alone
(over budget but not split mid-paragraph); chunk 2 is the 50-word
overlap seed from paragraph 1's tail followed by paragraph 2; and —
because the 50 + 600 running count already exceeds the budget when
paragraph 3 arrives — chunk 3 is the 50-word overlap seed from
paragraph 2's tail followed by paragraph 3. -/
theorem C1_amended :
    chunkText docC1 500 50 = [paraA, ovA ++ "\n\n" ++ paraB, ovB ++ "\n\n" ++ paraC] ∧
    ovA = String.intercalate " " ((splitWsStr paraA).drop ((splitWsStr paraA).length - 50)) ∧
    ovB = String.intercalate " " ((splitWsStr paraB).drop ((splitWsStr paraB).length - 50)) := by
  refine ⟨?_, ?_, ?_⟩
  · rw [chunkText, chunkParts_docC1]
    simp [intercalate_single, intercalate_pair]
  · rw [splitWsStr_paraA, List.length_replicate, List.drop_replicate,
      show (600 - (600 - 50) : Nat) = 50 by norm_num]
    rfl
  · rw [splitWsStr_paraB, List.length_replicate, List.drop_replicate,
      show (600 - (600 - 50) : Nat) = 50 by norm_num]
    rfl

/-! ## Claim C7: the overlap-seed invariant -/

/-- The word list of the last paragraph of a chunk (as its list of
paragraph strings). -/
def lastParaWords (c : List String) : List String :=
  splitWsStr (c.getLastD "")

/-- The trailing `min overlap wc` words of a chunk's last paragraph. -/
def seedWords (overlap : Nat) (c : List String) : List String :=
  (lastParaWords c).drop ((lastParaWords c).length - min overlap (lastParaWords c).length)

/-- Two adjacent chunks are correctly linked: the second one starts
with the overlap seed made of the trailing `min overlap wc` words of
the first one's last paragraph. -/
@[reducible] def seedOK (overlap : Nat) (c c' : List String) : Prop :=
  c'.headD "" = String.intercalate " " (seedWords overlap c) ∧
  (seedWords overlap c).length = min overlap (lastParaWords c).length

instance (overlap : Nat) : DecidableRel (seedOK overlap) := fun _ _ => instDecidableAnd

theorem splitWsGo_ne_nil : ∀ (l cur : List Char) (b : Bool), splitWsGo l cur b ≠ [] := by
  intro l
  induction l with
  | nil => intro cur b; simp [splitWsGo]
  | cons c rest ih =>
    intro cur b
    by_cases hc : jsWs c
    · cases b
      · simp [splitWsGo, hc]
      · simp only [splitWsGo, hc, if_true]
        exact ih _ _
    · simp only [splitWsGo, hc, Bool.false_eq_true, if_false]
      exact ih _ _

theorem lastParaWords_pos (c : List String) : 1 ≤ (lastParaWords c).length := by
  have := splitWsGo_ne_nil (c.getLastD "").data [] false
  have hne : lastParaWords c ≠ [] := this
  exact List.length_pos.mpr hne

/-- Every produced chunk extends the accumulator it was started from. -/
theorem chunkLoop_ext (cs ov : Nat) : ∀ (paras : List String) (cur : List String) (cnt : Nat),
    cur ≠ [] → ∃ ext rest, chunkLoop cs ov paras cur cnt = (cur ++ ext) :: rest := by
  intro paras
  induction paras with
  | nil =>
    intro cur cnt hcur
    refine ⟨[], [], ?_⟩
    rw [chunkLoop_nil]
    simp [List.isEmpty_iff, hcur]
  | cons p ps ih =>
    intro cur cnt hcur
    by_cases h : cnt + (splitWsStr p).length > cs ∧ cur ≠ []
    · refine ⟨[], chunkLoop cs ov ps
        [String.intercalate " " (jsSliceNeg (min ov cnt) (splitWsStr (cur.getLastD ""))), p]
        (min ov cnt + (splitWsStr p).length), ?_⟩
      rw [chunkLoop_flush _ _ _ _ _ _ h.1 h.2]
      simp
    · rw [chunkLoop_push _ _ _ _ _ _ h]
      rcases ih (cur ++ [p]) (cnt + (splitWsStr p).length) (by simp) with ⟨ext, rest, heq⟩
      exact ⟨[p] ++ ext, rest, by rw [heq, List.append_assoc]⟩

theorem seedWords_length (ov : Nat) (c : List String) :
    (seedWords ov c).length = min ov (lastParaWords c).length := by
  unfold seedWords
  rw [List.length_drop]
  omega

/-- Main induction for C7: the chunk list produced by `chunkLoop` is
`Chain'`-linked by `seedOK`, provided the invariant that the running
word count dominates the last paragraph's word count. -/
theorem chunkLoop_chain (cs ov : Nat) (hov : 1 ≤ ov) :
    ∀ (paras cur : List String) (cnt : Nat),
    (cur ≠ [] → (lastParaWords cur).length ≤ cnt) →
    List.Chain' (seedOK ov) (chunkLoop cs ov paras cur cnt) := by
  intro paras
  induction paras with
  | nil =>
    intro cur cnt _
    rw [chunkLoop_nil]
    by_cases hcur : cur.isEmpty <;> simp [hcur]
  | cons p ps ih =>
    intro cur cnt hinv
    by_cases h : cnt + (splitWsStr p).length > cs ∧ cur ≠ []
    · rw [chunkLoop_flush _ _ _ _ _ _ h.1 h.2]
      have hwcur : (lastParaWords cur).length ≤ cnt := hinv h.2
      have hcnt1 : 1 ≤ cnt := le_trans (lastParaWords_pos cur) hwcur
      have hmin1 : 1 ≤ min ov cnt := le_min hov hcnt1
      have htailinv : ∀ (_ : ([String.intercalate " "
            (jsSliceNeg (min ov cnt) (splitWsStr (cur.getLastD ""))), p] : List String) ≠ []),
          (lastParaWords [String.intercalate " "
            (jsSliceNeg (min ov cnt) (splitWsStr (cur.getLastD ""))), p]).length ≤
            min ov cnt + (splitWsStr p).length := by
        intro _
        unfold lastParaWords
        simp
      have htail := ih _ _ htailinv
      rcases chunkLoop_ext cs ov ps
        [String.intercalate " " (jsSliceNeg (min ov cnt) (splitWsStr (cur.getLastD ""))), p]
        (min ov cnt + (splitWsStr p).length) (by simp) with ⟨ext, rest, heq⟩
      rw [heq] at htail ⊢
      refine List.chain'_cons.mpr ⟨?_, htail⟩
      constructor
      · show (_ :: _ ++ ext).headD "" = _
        simp only [List.cons_append, List.headD_cons]
        congr 1
        unfold seedWords lastParaWords
        have hmin0 : min ov cnt ≠ 0 := by omega
        unfold jsSliceNeg
        rw [if_neg hmin0]
        congr 1
        have hw := lastParaWords_pos cur
        unfold lastParaWords at hw hwcur
        omega
      · exact seedWords_length ov cur
    · rw [chunkLoop_push _ _ _ _ _ _ h]
      apply ih
      intro _
      unfold lastParaWords
      rw [List.getLastD_concat]
      exact Nat.le_add_left _ _

/-- **C7, amended.**  For overlap ≥ 1, for any two adjacent chunks
produced by the chunker from the same document, the trailing words of
chunk *i* that seed chunk *i+1*'s overlap prefix are a verbatim suffix
of chunk *i*'s last paragraph, of length
`min(overlapWords, wordsInThatParagraph)`.  (For `overlap = 0` the
claim fails, see the counterexample: JS `slice(-0)` returns the whole
array, so the seed is the entire last paragraph.) -/
theorem C7_amended (text : String) (chunkSize overlap : Nat) (hov : 1 ≤ overlap) :
    List.Chain' (seedOK overlap) (chunkParts text chunkSize overlap) := by
  unfold chunkParts
  exact chunkLoop_chain chunkSize overlap hov _ [] 0 (fun hne => absurd rfl hne)

/-- **C7, witness** for the amended theorem at a concrete document. -/
theorem C7_witness :
    1 ≤ 1 ∧ List.Chain' (seedOK 1) (chunkParts "a b\n\nc d" 2 1) :=
  ⟨by decide, C7_amended "a b\n\nc d" 2 1 (by decide)⟩

/-- **C7, counterexample.**  With `overlap = 0` the JS quirk
`slice(-0) = slice(0)` seeds the next chunk with the whole previous
paragraph, so the "length `min(overlapWords, wordsInThatParagraph)`"
clause (which would require an empty seed) fails. -/
theorem C7_counterexample :
    ¬ List.Chain' (seedOK 0) (chunkParts "a b c\n\nd e f" 2 0) := by
  intro h
  rw [show chunkParts "a b c\n\nd e f" 2 0 = [["a b c"], ["a b c", "d e f"]] from by decide] at h
  exact absurd (List.chain'_cons.mp h).1 (by decide)

/-! ## Chapter detection (`detectChapters`) and `processBookFile` -/

/-- `[A-Z]` (code points 65–90). -/
def isUpperAscii (c : Char) : Bool := 65 ≤ c.toNat && c.toNat ≤ 90

/-- `[a-z]` (code points 97–122). -/
def isLowerAscii (c : Char) : Bool := 97 ≤ c.toNat && c.toNat ≤ 122

/-- After a matched literal: `\s+` followed by `\d` (the regexes only
test, so one digit after the whitespace run decides the match). -/
def wsThenDigit (l : List Char) : Bool :=
  match l with
  | c :: rest =>
    jsWs c &&
      (match rest.dropWhile jsWs with
       | d :: _ => d.isDigit
       | [] => false)
  | [] => false

/-- `[IVXLCDM]`, case-insensitively (the regex has the `i` flag and is
run on the lowercased line). -/
def isRomanLower (c : Char) : Bool :=
  c == 'i' || c == 'v' || c == 'x' || c == 'l' || c == 'c' || c == 'd' || c == 'm'

/-- After a matched literal: `\s+` followed by `[IVXLCDM]`. -/
def wsThenRoman (l : List Char) : Bool :=
  match l with
  | c :: rest =>
    jsWs c &&
      (match rest.dropWhile jsWs with
       | d :: _ => isRomanLower d
       | [] => false)
  | [] => false

/-- `/^Chapter\s+\d+/i`. -/
def matchChapterNum (s : String) : Bool :=
  let d := (strLower s).data
  isPrefixChars "chapter".data d && wsThenDigit (d.drop 7)

/-- `/^CHAPTER\s+[IVXLCDM]+/i`. -/
def matchChapterRoman (s : String) : Bool :=
  let d := (strLower s).data
  isPrefixChars "chapter".data d && wsThenRoman (d.drop 7)

/-- `[一二三四五六七八九十\d]`. -/
def zhNumChar (c : Char) : Bool :=
  c == '一' || c == '二' || c == '三' || c == '四' || c == '五' ||
  c == '六' || c == '七' || c == '八' || c == '九' || c == '十' || c.isDigit

/-- `/^第\s*[一二三四五六七八九十\d]+\s*章/i`. -/
def matchChapterZh (s : String) : Bool :=
  match s.data with
  | c :: rest =>
    c == '第' &&
      (let r1 := rest.dropWhile jsWs
       !(r1.takeWhile zhNumChar).isEmpty &&
         (match (r1.dropWhile zhNumChar).dropWhile jsWs with
          | d :: _ => d == '章'
          | [] => false))
  | [] => false

/-- Does a trimmed line match one of the three chapter patterns? -/
def isChapterLine (s : String) : Bool :=
  matchChapterNum s || matchChapterZh s || matchChapterRoman s

/-- A detected chapter: trimmed heading line and its line index. -/
structure ChapterMark where
  title : String
  startIndex : Nat
deriving DecidableEq, Repr

/-- The `lines.forEach((line, index) => ...)` loop of `detectChapters`. -/
def detectChaptersGo : Nat → List String → List ChapterMark
  | _, [] => []
  | i, line :: rest =>
    if isChapterLine (jsTrim line) then
      ⟨jsTrim line, i⟩ :: detectChaptersGo (i + 1) rest
    else detectChaptersGo (i + 1) rest

/-- `detectChapters(text)`. -/
def detectChapters (text : String) : List ChapterMark :=
  detectChaptersGo 0 (splitLines text)

/-- A chunk as returned by `processBookFile`: content plus metadata. -/
structure LabeledChunk where
  content : String
  bookTitle : String
  chapterTitle : Option String
deriving DecidableEq, Repr, Inhabited

/-- `chapters.find((ch, chIndex) => { const nextChapter = chapters[chIndex + 1];
return !nextChapter || index < nextChapter.startIndex; })` — note that
`index` is the CHUNK index while `startIndex` is a LINE index. -/
def findChapterFor : List ChapterMark → Nat → Option ChapterMark
  | [], _ => none
  | [ch] , _ => some ch
  | ch :: ch2 :: rest, idx =>
    if idx < ch2.startIndex then some ch else findChapterFor (ch2 :: rest) idx

/-- The `chunks.map((chunk, index) => ...)` stage of `processBookFile`. -/
def labelChunksGo (chapters : List ChapterMark) (bookTitle : String) :
    Nat → List String → List LabeledChunk
  | _, [] => []
  | i, content :: rest =>
    ⟨content, bookTitle, (findChapterFor chapters i).map ChapterMark.title⟩ ::
      labelChunksGo chapters bookTitle (i + 1) rest

/-- `processBookFile` after text extraction (the file reading and the
DOCX/PDF/TXT dispatch are I/O and are not modelled): normalize line
endings, collapse newline runs, trim, chunk with the default
`chunkSize = 500, overlap = 50`, detect chapters, and label each chunk. -/
def processBookFile (text bookTitle : String) : List LabeledChunk :=
  let cleaned := jsTrim ⟨collapseNlGo (replaceCRLF text.data) 0⟩
  labelChunksGo (detectChapters cleaned) bookTitle 0 (chunkText cleaned 500 50)

/-! ## The C4 scenario: a 600-word preamble before the only heading -/

/-- A document whose first 600-word paragraph lies entirely before the
only chapter heading, `Chapter 1`, on line 2. -/
def docC4 : String :=
  ⟨repWord 'a' 600 ++ '\n' :: '\n' :: ("Chapter 1".data ++ '\n' :: '\n' :: repWord 'b' 600)⟩

theorem collapseNlGo_no_nl {a : List Char} (n : Nat) (h : ∀ x ∈ a, x ≠ '\n') (hne : a ≠ []) :
    collapseNlGo a n = a := by
  have := collapseNlGo_acc [] a n h hne
  simpa [collapseNlGo] using this

theorem exists_rev_head {α : Type} (P B : List α) (x : α) (t : List α) (hb : B.reverse = x :: t) :
    ∃ t', (P ++ B).reverse = x :: t' :=
  ⟨t ++ P.reverse, by rw [List.reverse_append, hb]; rfl⟩

theorem repWord_lit_facts {c : Char} {n m : Nat} (h : n = m + 1) :
    (∃ t, repWord c n = c :: t) ∧ (∃ t, (repWord c n).reverse = c :: t) := by
  subst h
  exact ⟨repWord_cons c m, repWord_reverse_cons c m⟩

theorem docC4_clean : jsTrim ⟨collapseNlGo (replaceCRLF docC4.data) 0⟩ = docC4 := by
  have hdata : docC4.data =
      repWord 'a' 600 ++ '\n' :: '\n' :: ("Chapter 1".data ++ '\n' :: '\n' :: repWord 'b' 600) := rfl
  rcases repWord_lit_facts (c := 'a') (show (600 : Nat) = 599 + 1 by norm_num) with ⟨⟨ta, hta⟩, _⟩
  rcases repWord_lit_facts (c := 'b') (show (600 : Nat) = 599 + 1 by norm_num) with ⟨⟨tb, htb⟩, ⟨tbr, htbr⟩⟩
  have hmemr : ∀ x ∈ docC4.data, x ≠ '\r' := by
    intro x hx
    rw [hdata] at hx
    rcases List.mem_append.mp hx with h | h
    · rcases mem_repWord _ _ _ h with rfl | rfl <;> decide
    · rcases List.mem_cons.mp h with rfl | h
      · decide
      rcases List.mem_cons.mp h with rfl | h
      · decide
      rcases List.mem_append.mp h with h | h
      · exact (by decide : ∀ x ∈ "Chapter 1".data, x ≠ '\r') x h
      rcases List.mem_cons.mp h with rfl | h
      · decide
      rcases List.mem_cons.mp h with rfl | h
      · decide
      · rcases mem_repWord _ _ _ h with rfl | rfl <;> decide
  have hr : replaceCRLF docC4.data = docC4.data := replaceCRLFGo_eq_self _ hmemr
  have hcol : collapseNlGo docC4.data 0 = docC4.data := by
    rw [hdata]
    rw [collapseNlGo_acc _ (repWord 'a' 600) 0 (repWord_no_nl (by decide) 600) (by rw [hta]; simp)]
    rw [collapseNlGo_nl2]
    rw [collapseNlGo_acc _ ("Chapter 1".data) 2 (by decide) (by decide)]
    rw [collapseNlGo_nl2]
    rw [collapseNlGo_no_nl 2 (repWord_no_nl (by decide) 600) (by rw [htb]; simp)]
  have htrim : jsTrim docC4 = docC4 := by
    apply jsTrim_eq_self
    · refine ⟨'a', ta ++ '\n' :: '\n' :: ("Chapter 1".data ++ '\n' :: '\n' :: repWord 'b' 600), ?_, by decide⟩
      rw [hdata, hta]
      rfl
    · have hsplit : docC4.data =
          (repWord 'a' 600 ++ '\n' :: '\n' :: ("Chapter 1".data ++ ['\n', '\n'])) ++ repWord 'b' 600 := by
        rw [hdata]
        simp
      rcases exists_rev_head (repWord 'a' 600 ++ '\n' :: '\n' :: ("Chapter 1".data ++ ['\n', '\n']))
        (repWord 'b' 600) 'b' tbr htbr with ⟨t', ht'⟩
      exact ⟨'b', t', by rw [hsplit, ht'], by decide⟩
  rw [show replaceCRLF docC4.data = replaceCRLFGo docC4.data false from rfl] at hr ⊢
  rw [hr, hcol]
  rw [show (⟨docC4.data⟩ : String) = docC4 from rfl]
  exact htrim

theorem splitParas_docC4 : splitParas docC4 = [paraA, "Chapter 1", paraB] := by
  rcases repWord_cons_lit (c := 'a') (show (600 : Nat) = 599 + 1 by norm_num) with ⟨ta, hta⟩
  rcases repWord_cons_lit (c := 'b') (show (600 : Nat) = 599 + 1 by norm_num) with ⟨tb, htb⟩
  have hnoA : ∀ x ∈ ta, x ≠ '\n' := fun x hx =>
    repWord_no_nl (c := 'a') (by decide) 600 x (by rw [hta]; exact List.mem_cons_of_mem _ hx)
  have hnoB : ∀ x ∈ tb, x ≠ '\n' := fun x hx =>
    repWord_no_nl (c := 'b') (by decide) 600 x (by rw [htb]; exact List.mem_cons_of_mem _ hx)
  have hd : docC4.data =
      repWord 'a' 600 ++ '\n' :: '\n' :: ("Chapter 1".data ++ '\n' :: '\n' :: repWord 'b' 600) := rfl
  rw [hta, htb] at hd
  rw [show ("Chapter 1".data : List Char) =
    'C' :: ['h', 'a', 'p', 't', 'e', 'r', ' ', '1'] from rfl] at hd
  unfold splitParas
  rw [hd]
  rw [splitParasGo_word_piece (by decide) ta _ hnoA]
  rw [splitParasGo_word_piece_true (by decide) ['h', 'a', 'p', 't', 'e', 'r', ' ', '1'] _ (by decide)]
  rw [splitParasGo_word_last_true (by decide) tb hnoB]
  simp [paraA, paraB, hta, htb]

theorem splitLines_docC4 : splitLines docC4 = [paraA, "", "Chapter 1", "", paraB] := by
  rcases repWord_cons_lit (c := 'a') (show (600 : Nat) = 599 + 1 by norm_num) with ⟨ta, hta⟩
  rcases repWord_cons_lit (c := 'b') (show (600 : Nat) = 599 + 1 by norm_num) with ⟨tb, htb⟩
  have hd : docC4.data =
      repWord 'a' 600 ++ '\n' :: '\n' :: ("Chapter 1".data ++ '\n' :: '\n' :: repWord 'b' 600) := rfl
  unfold splitLines
  rw [hd]
  rw [splitLinesGo_acc _ (repWord 'a' 600) [] (repWord_no_nl (by decide) 600)]
  rw [splitLinesGo_nl, splitLinesGo_nl]
  rw [splitLinesGo_acc _ ("Chapter 1".data) [] (by decide)]
  rw [splitLinesGo_nl, splitLinesGo_nl]
  have hlast : splitLinesGo (repWord 'b' 600) [] = [paraB] := by
    have := splitLinesGo_acc [] (repWord 'b' 600) [] (repWord_no_nl (by decide) 600)
    simp only [List.append_nil] at this
    rw [this]
    simp [splitLinesGo, paraB]
  rw [hlast]
  simp [paraA]

theorem matchChapterNum_false_head {s : String} {c : Char} {t : List Char}
    (hld : (strLower s).data = c :: t) (hcr : c ≠ 'c') : matchChapterNum s = false := by
  unfold matchChapterNum
  simp only [hld]
  have : ('c' == c) = false := beq_eq_false_iff_ne.mpr (Ne.symm hcr)
  simp [isPrefixChars, this]

theorem matchChapterRoman_false_head {s : String} {c : Char} {t : List Char}
    (hld : (strLower s).data = c :: t) (hcr : c ≠ 'c') : matchChapterRoman s = false := by
  unfold matchChapterRoman
  simp only [hld]
  have : ('c' == c) = false := beq_eq_false_iff_ne.mpr (Ne.symm hcr)
  simp [isPrefixChars, this]

theorem matchChapterZh_false_head {s : String} {c : Char} {t : List Char}
    (hd : s.data = c :: t) (hzh : c ≠ '第') : matchChapterZh s = false := by
  unfold matchChapterZh
  rw [hd]
  have : (c == '第') = false := beq_eq_false_iff_ne.mpr hzh
  simp [this]

theorem isChapterLine_false_heads {s : String} {c c0 : Char} {t t0 : List Char}
    (hld : (strLower s).data = c :: t) (hcr : c ≠ 'c')
    (hd : s.data = c0 :: t0) (hzh : c0 ≠ '第') : isChapterLine s = false := by
  unfold isChapterLine
  rw [matchChapterNum_false_head hld hcr, matchChapterRoman_false_head hld hcr,
    matchChapterZh_false_head hd hzh]
  rfl

theorem isChapterLine_repWord {c : Char} {n m : Nat} (h : n = m + 1)
    (hcr : c.toLower ≠ 'c') (hzh : c ≠ '第') :
    isChapterLine ⟨repWord c n⟩ = false := by
  subst h
  rcases repWord_cons c.toLower m with ⟨tl, htl⟩
  rcases repWord_cons c m with ⟨t0, ht0⟩
  have h1 : (strLower ⟨repWord c (m + 1)⟩).data = c.toLower :: tl := by
    show (repWord c (m + 1)).map Char.toLower = c.toLower :: tl
    rw [map_toLower_repWord, htl]
  exact isChapterLine_false_heads h1 hcr ht0 hzh

theorem detectChapters_docC4 : detectChapters docC4 = [⟨"Chapter 1", 2⟩] := by
  unfold detectChapters
  rw [splitLines_docC4]
  have htrA : jsTrim paraA = paraA :=
    jsTrim_repWord (by decide) (show (600 : Nat) = 599 + 1 by norm_num)
  have htrB : jsTrim paraB = paraB :=
    jsTrim_repWord (by decide) (show (600 : Nat) = 599 + 1 by norm_num)
  have hA : isChapterLine (jsTrim paraA) = false := by
    rw [htrA]
    exact isChapterLine_repWord (show (600 : Nat) = 599 + 1 by norm_num) (by decide) (by decide)
  have hB : isChapterLine (jsTrim paraB) = false := by
    rw [htrB]
    exact isChapterLine_repWord (show (600 : Nat) = 599 + 1 by norm_num) (by decide) (by decide)
  have hE : isChapterLine (jsTrim "") = false := by decide
  have hCh : isChapterLine (jsTrim "Chapter 1") = true := by decide
  have hChT : jsTrim "Chapter 1" = "Chapter 1" := by decide
  have hCh2 : isChapterLine "Chapter 1" = true := by decide
  simp only [detectChaptersGo, hA, hB, hE, hCh, hChT, hCh2, if_true, if_false, Bool.false_eq_true]

theorem chunkParts_docC4 :
    chunkParts docC4 500 50 = [[paraA], [ovA, "Chapter 1"], ["Chapter" ++ " " ++ "1", paraB]] := by
  have hwA : splitWsStr paraA = List.replicate 600 "a" := splitWsStr_paraA
  have hwB : splitWsStr paraB = List.replicate 600 "b" := splitWsStr_paraB
  have hwCh : splitWsStr "Chapter 1" = ["Chapter", "1"] := by decide
  have htrA : jsTrim paraA = paraA :=
    jsTrim_repWord (by decide) (show (600 : Nat) = 599 + 1 by norm_num)
  have htrB : jsTrim paraB = paraB :=
    jsTrim_repWord (by decide) (show (600 : Nat) = 599 + 1 by norm_num)
  have hneA : paraA ≠ "" := repWord_ne_empty (show (600 : Nat) = 599 + 1 by norm_num)
  have hneB : paraB ≠ "" := repWord_ne_empty (show (600 : Nat) = 599 + 1 by norm_num)
  have hparas : ((splitParas docC4).map jsTrim).filter (· ≠ "") = [paraA, "Chapter 1", paraB] := by
    rw [splitParas_docC4]
    simp [htrA, htrB, List.filter_cons, hneA, hneB, show jsTrim "Chapter 1" = "Chapter 1" by decide,
      show ("Chapter 1" : String) ≠ "" by decide]
  unfold chunkParts
  rw [hparas]
  rw [chunkLoop_push 500 50 paraA ["Chapter 1", paraB] [] 0 (by simp)]
  simp only [List.nil_append]
  rw [show (0 + (splitWsStr paraA).length) = 600 by rw [hwA, List.length_replicate]]
  rw [chunkLoop_flush 500 50 "Chapter 1" [paraB] [paraA] 600
    (by rw [hwCh]; norm_num) (by simp)]
  rw [show String.intercalate " " (jsSliceNeg (min 50 600) (splitWsStr ([paraA].getLastD ""))) = ovA by
    rw [show [paraA].getLastD "" = paraA from rfl, hwA]
    rw [show min (50 : Nat) 600 = 50 by norm_num]
    rw [show jsSliceNeg 50 (List.replicate 600 "a") = List.replicate 50 "a" by
      unfold jsSliceNeg
      rw [List.length_replicate]
      norm_num [List.drop_replicate]]
    rfl]
  rw [show (min 50 600 + (splitWsStr "Chapter 1").length) = 52 by
    rw [hwCh]; norm_num]
  rw [chunkLoop_flush 500 50 paraB [] [ovA, "Chapter 1"] 52
    (by rw [hwB, List.length_replicate]; norm_num) (by simp)]
  rw [show String.intercalate " "
      (jsSliceNeg (min 50 52) (splitWsStr ([ovA, "Chapter 1"].getLastD ""))) =
      "Chapter" ++ " " ++ "1" by
    rw [show [ovA, "Chapter 1"].getLastD "" = "Chapter 1" from rfl, hwCh]
    rw [show min (50 : Nat) 52 = 50 by norm_num]
    rw [show jsSliceNeg 50 (["Chapter", "1"] : List String) = ["Chapter", "1"] by decide]
    rfl]
  rw [chunkLoop_nil]
  simp

/-- **C4, code evaluation at the failing input.**  The only detected
chapter heading starts at line 2, after the entire 600-word first
paragraph; yet the code labels every chunk — including chunk 0, whose
content is exactly that pre-heading paragraph — with "Chapter 1",
because `processBookFile` compares the chunk's array index with the
chapter's line index.  The claim instead requires chunk 0 to receive
no chapter label. -/
theorem C4_code_eval :
    detectChapters docC4 = [⟨"Chapter 1", 2⟩] ∧
    (processBookFile docC4 "B").map LabeledChunk.content =
      [paraA, ovA ++ "\n\n" ++ "Chapter 1", "Chapter" ++ " " ++ "1" ++ "\n\n" ++ paraB] ∧
    (processBookFile docC4 "B").map LabeledChunk.chapterTitle =
      [some "Chapter 1", some "Chapter 1", some "Chapter 1"] := by
  have hchunks : chunkText docC4 500 50 =
      [paraA, ovA ++ "\n\n" ++ "Chapter 1", "Chapter" ++ " " ++ "1" ++ "\n\n" ++ paraB] := by
    rw [chunkText, chunkParts_docC4]
    simp [intercalate_single, intercalate_pair]
  have hpb : processBookFile docC4 "B" =
      labelChunksGo (detectChapters docC4) "B" 0 (chunkText docC4 500 50) := by
    unfold processBookFile
    rw [docC4_clean]
  refine ⟨detectChapters_docC4, ?_, ?_⟩
  · rw [hpb, detectChapters_docC4, hchunks]
    simp [labelChunksGo, findChapterFor]
  · rw [hpb, detectChapters_docC4, hchunks]
    simp [labelChunksGo, findChapterFor]

/-! ## The context formatter (`formatBookContext`, source `lib/bookRAG.ts`)
and prompt augmenter (`queryWithBookKnowledge`) -/

/-- A book chunk as stored in the vector index. -/
structure BookChunkItem where
  content : String
  bookTitle : String
  chapterTitle : Option String
  pageNumber : Option Nat
deriving DecidableEq, Repr, Inhabited

/-- A scored retrieval hit (`SearchResult<BookChunkItem>`); the JS
similarity score is modelled as a rational. -/
structure SearchResult where
  item : BookChunkItem
  score : ℚ
deriving DecidableEq, Repr, Inhabited

/-- Count of the matches of `/\d{3,}/g`: one per maximal digit run of
length at least 3 (the greedy match consumes a whole run).  `run` is
the length of the current digit run. -/
def digitRunsGo : List Char → Nat → Nat
  | [], run => if run ≥ 3 then 1 else 0
  | c :: rest, run =>
    if c.isDigit then digitRunsGo rest (run + 1)
    else (if run ≥ 3 then 1 else 0) + digitRunsGo rest 0

/-- Anchored match of `[A-Z][a-z]+,\s+[A-Z]\.\s+[A-Z]\.` preceded by
`\s*` (the body of `/^\s*[A-Z][a-z]+,\s+[A-Z]\.\s+[A-Z]\./`); all the
quantified classes are disjoint from what follows them, so the greedy
scan needs no backtracking. -/
def citationFrom (l : List Char) : Bool :=
  match l.dropWhile jsWs with
  | c1 :: r1 =>
    isUpperAscii c1 &&
      (!(r1.takeWhile isLowerAscii).isEmpty &&
        (match r1.dropWhile isLowerAscii with
         | ',' :: r3 =>
           (match r3 with
            | w :: _ => jsWs w
            | [] => false) &&
             (match r3.dropWhile jsWs with
              | c2 :: '.' :: r5 =>
                isUpperAscii c2 &&
                  ((match r5 with
                    | w :: _ => jsWs w
                    | [] => false) &&
                   (match r5.dropWhile jsWs with
                    | c3 :: '.' :: _ => isUpperAscii c3
                    | _ => false))
              | _ => false)
         | _ => false))
  | [] => false

/-- The `m` flag: try the anchored match at the string start and after
every newline. -/
def citationScan : List Char → Bool
  | [] => false
  | c :: rest =>
    if c = '\n' then citationFrom rest || citationScan rest
    else citationScan rest

/-- `content.match(/^\s*[A-Z][a-z]+,\s+[A-Z]\.\s+[A-Z]\./m)` as a
Boolean test. -/
def citationMatch (l : List Char) : Bool :=
  citationFrom l || citationScan l

/-- Length of an anchored match of `[A-Z][a-z]+,\s+[A-Z]\./`, if any. -/
def nameMatchLen (l : List Char) : Option Nat :=
  match l with
  | c1 :: r1 =>
    if isUpperAscii c1 then
      let low := r1.takeWhile isLowerAscii
      if low.isEmpty then none
      else
        match r1.drop low.length with
        | ',' :: r3 =>
          let ws := r3.takeWhile jsWs
          if ws.isEmpty then none
          else
            match r3.drop ws.length with
            | c2 :: '.' :: _ =>
              if isUpperAscii c2 then some (1 + low.length + 1 + ws.length + 2) else none
            | _ => none
        | _ => none
    else none
  | [] => none

/-- Count of the matches of `/[A-Z][a-z]+,\s+[A-Z]\./g`: scan left to
right, consuming each match (fuel is the list length; every step
consumes at least one character). -/
def namePatGo : Nat → List Char → Nat
  | 0, _ => 0
  | _ + 1, [] => 0
  | fuel + 1, c :: rest =>
    match nameMatchLen (c :: rest) with
    | some n => 1 + namePatGo fuel ((c :: rest).drop n)
    | none => namePatGo fuel rest

def namePatCount (l : List Char) : Nat :=
  namePatGo l.length l

/-- The chunk filter of `formatBookContext` (source lines 111–141),
with the source's early-return structure.  `orig` is
`result.item.content`; the source's local `content` (its lowercased
copy) is written out as `strLower orig`. -/
def passesBookFilter (orig : String) : Bool :=
  if containsStr (strLower orig) "references" ||
      containsStr (strLower orig) "bibliography" then false
  else if citationMatch (strLower orig).data then false
  else if digitRunsGo (strLower orig).data 0 > 3 then false
  else if containsStr (strLower orig) "copyright" ||
      containsStr (strLower orig) "©" then false
  else if orig.length < 200 then false
  else if containsStr (strLower orig) "colleagues created" ||
      containsStr (strLower orig) "simulated prison" then false
  else if containsStr (strLower orig) "points to the second conclusion" then false
  else if namePatCount (strLower orig).data > 3 then false
  else true

/-- `(result.score * 100).toFixed(1)`, modelled over `ℚ` for
nonnegative values (round half up, one decimal). -/
def toFixed1 (q : ℚ) : String :=
  let n : Int := Rat.floor (q * 10 + 1 / 2)
  toString (n / 10) ++ "." ++ toString ((n % 10).natAbs)

/-- `${result.item.chapterTitle || 'Chapter unknown'}` (the JS `||`
treats the empty string as falsy). -/
def chapterLineOf (r : SearchResult) : String :=
  match r.item.chapterTitle with
  | some c => if c = "" then "Chapter unknown" else c
  | none => "Chapter unknown"

/-- One formatted source block of `formatBookContext`. -/
def sourceBlock (idx : Nat) (r : SearchResult) : String :=
  "\n📚 Source " ++ toString (idx + 1) ++ " (Relevance: " ++ toFixed1 (r.score * 100) ++
    "%)\nBook: " ++ r.item.bookTitle ++ "\n" ++ chapterLineOf r ++ "\n\nContent:\n" ++
    jsTrim r.item.content ++ "\n"

/-- `array.map((x, index) => f(index, x))`. -/
def mapIdxGo {α β : Type} (f : Nat → α → β) : Nat → List α → List β
  | _, [] => []
  | i, a :: as => f i a :: mapIdxGo f (i + 1) as

/-- `validResults.map(...).join('\n---\n')`. -/
def formattedSources (valid : List SearchResult) : String :=
  String.intercalate "\n---\n" (mapIdxGo sourceBlock 0 valid)

/-- The fixed introduction line of the context block (always naming a
single book title). -/
def bookContextIntro (t : String) : String :=
  "The following information is from the book \"" ++ t ++ "\":"

/-- The fixed trailer of the context block. -/
def bookContextFooter : String :=
  "\n\n---\n\nIMPORTANT: Answer the user's question by directly referencing the book content above. \n- Start with \"According to the book...\" or \"The book explains that...\"\n- Cite specific theories, concepts, and terms from the text\n- Quote relevant passages when appropriate\n- Mention the book title in your response\n"

/-- `formatBookContext(results)`: empty when there are no results or
when the filter removes every result; otherwise the trimmed template
naming `validResults[0].item.bookTitle`. -/
def formatBookContext (results : List SearchResult) : String :=
  if results.isEmpty then ""
  else
    let validResults := results.filter (fun r => passesBookFilter r.item.content)
    if validResults.isEmpty then ""
    else
      jsTrim ("\n" ++ (bookContextIntro (validResults.headD default).item.bookTitle ++
        ("\n\n" ++ (formattedSources validResults ++ bookContextFooter))))

/-- The result of `queryWithBookKnowledge`. -/
structure AugmentResult where
  enhancedPrompt : String
  sources : List SearchResult
deriving Repr

/-- `queryWithBookKnowledge` after retrieval (the vector-store call
`retrieveBookKnowledge` is external I/O; its result list is taken as
input): early-return on empty retrieval, else append the formatted
context to the base prompt and keep the raw results as `sources`. -/
def queryWithBookKnowledge (bookResults : List SearchResult) (systemPrompt : String) :
    AugmentResult :=
  if bookResults.isEmpty then ⟨systemPrompt, []⟩
  else ⟨systemPrompt ++ "\n\n" ++ formatBookContext bookResults, bookResults⟩

/-! ## Claims C9, C2, C10 -/

/-- **C9.**  The `sources` list returned alongside the augmented prompt
is exactly the original, pre-filter, pre-format retrieval result list —
same entries, same order, same scores — in both branches of
`queryWithBookKnowledge`; the filtering inside `formatBookContext`
never touches it. -/
theorem C9_theorem (bookResults : List SearchResult) (systemPrompt : String) :
    (queryWithBookKnowledge bookResults systemPrompt).sources = bookResults := by
  unfold queryWithBookKnowledge
  by_cases h : bookResults.isEmpty
  · rw [if_pos h]
    exact (List.isEmpty_iff.mp h).symm
  · rw [if_neg h]

/-- A retrieval hit whose content is filtered out (it contains the
word "references"). -/
def badR : SearchResult := ⟨⟨"references", "Some Book", none, none⟩, 1 / 2⟩

/-- **C2, counterexample.**  With a non-empty retrieval list whose only
chunk is removed by the filter, the augmented prompt is the base prompt
followed by a blank line (`"\n\n"`), not the base prompt itself:
augmenting with an empty context is *not* the character-for-character
identity. -/
theorem C2_counterexample :
    (queryWithBookKnowledge [badR] "You are a helpful assistant.").enhancedPrompt ≠
      "You are a helpful assistant." := by
  decide

/-- **C2, amended.**  For every base system prompt and every non-empty
retrieval list all of whose chunks are removed by the filter (empty
context block), the prompt augmenter returns the base prompt followed
by exactly one blank-line separator `"\n\n"` (the template
`${systemPrompt}\n\n${bookContext}` with an empty context); it equals
the base prompt only up to that trailing separator. -/
theorem C2_amended (systemPrompt : String) (bookResults : List SearchResult)
    (hne : bookResults ≠ [])
    (hfil : bookResults.filter (fun r => passesBookFilter r.item.content) = []) :
    (queryWithBookKnowledge bookResults systemPrompt).enhancedPrompt =
      systemPrompt ++ "\n\n" := by
  unfold queryWithBookKnowledge
  rw [if_neg (by simpa [List.isEmpty_iff] using hne)]
  show systemPrompt ++ "\n\n" ++ formatBookContext bookResults = _
  have hctx : formatBookContext bookResults = "" := by
    unfold formatBookContext
    rw [if_neg (by simpa [List.isEmpty_iff] using hne)]
    simp [hfil]
  rw [hctx]
  simp

/-- **C2, witness** for the amended theorem at a concrete input. -/
theorem C2_witness :
    ([badR] ≠ ([] : List SearchResult)) ∧
    ([badR].filter (fun r => passesBookFilter r.item.content) = []) ∧
    (queryWithBookKnowledge [badR] "Base prompt.").enhancedPrompt = "Base prompt." ++ "\n\n" :=
  ⟨by decide, by decide, C2_amended "Base prompt." [badR] (by decide) (by decide)⟩

theorem bookContextIntro_head (t : String) :
    (bookContextIntro t).data =
      'T' :: ("he following information is from the book \"".data ++
        (t.data ++ "\":".data)) := by
  have h1 : (bookContextIntro t).data =
      "The following information is from the book \"".data ++ t.data ++ "\":".data := by
    simp [bookContextIntro]
  rw [h1]
  rw [show ("The following information is from the book \"".data : List Char) =
    'T' :: "he following information is from the book \"".data from rfl]
  simp

theorem jsTrim_shape (intro sfx : String) {c : Char} {t : List Char}
    (hintro : intro.data = c :: t) (hc : jsWs c = false)
    (hnws : ∃ ch ∈ sfx.data, jsWs ch = false) :
    jsTrim ("\n" ++ (intro ++ sfx)) = intro ++ ⟨trimRightChars sfx.data⟩ := by
  unfold jsTrim
  have hd : ("\n" ++ (intro ++ sfx)).data = '\n' :: (intro.data ++ sfx.data) := by
    simp
  rw [hd]
  have hleft : trimLeftChars ('\n' :: (intro.data ++ sfx.data)) = intro.data ++ sfx.data := by
    unfold trimLeftChars
    rw [List.dropWhile_cons, if_pos (by decide)]
    rw [hintro, List.cons_append, List.dropWhile_cons, if_neg (by simp [hc])]
  rw [hleft]
  rw [trimRightChars_append _ _ hnws]
  rfl

/-- **C10.**  Whenever at least one retrieved chunk survives the
filter, the context block's introductory line attributes the entire
block to the book title of the first (highest-ranked) surviving chunk
alone — the output starts with
`The following information is from the book "X":` for
`X = validResults[0].item.bookTitle` — regardless of how many distinct
books the surviving chunks come from; the fixed template names no
other book title in the introduction. -/
theorem C10_theorem (results : List SearchResult)
    (hval : results.filter (fun r => passesBookFilter r.item.content) ≠ []) :
    ∃ rest : String, formatBookContext results =
      bookContextIntro
        (((results.filter (fun r => passesBookFilter r.item.content)).headD
          default).item.bookTitle) ++ rest := by
  have hres : results ≠ [] := by
    intro h
    exact hval (by simp [h])
  unfold formatBookContext
  rw [if_neg (by simpa [List.isEmpty_iff] using hres)]
  simp only [List.isEmpty_iff]
  rw [if_neg hval]
  refine ⟨⟨trimRightChars ("\n\n" ++
    (formattedSources (results.filter (fun r => passesBookFilter r.item.content)) ++
      bookContextFooter)).data⟩, ?_⟩
  apply jsTrim_shape _ _ (bookContextIntro_head _) (by decide)
  refine ⟨'I', ?_, by decide⟩
  have hmem : 'I' ∈ bookContextFooter.data := by decide
  simp [hmem]

/-- A retrieval hit whose 201-character lowercase content passes the
filter. -/
def goodR : SearchResult := ⟨⟨⟨repWord 'x' 101⟩, "BookX", some "Ch. 1", some 3⟩, 9 / 10⟩

set_option maxRecDepth 400000 in
/-- **C10, witness** for the theorem at a concrete input. -/
theorem C10_witness :
    ([goodR].filter (fun r => passesBookFilter r.item.content) ≠ []) ∧
    (∃ rest : String, formatBookContext [goodR] =
      bookContextIntro
        ((([goodR].filter (fun r => passesBookFilter r.item.content)).headD
          default).item.bookTitle) ++ rest) := by
  refine ⟨?_, ?_⟩
  · decide
  · exact C10_theorem [goodR] (by decide)

/-! ## Claim C8: the filter on "References" pages and ordinary prose -/

theorem intercalate_go_append (s a : String) : ∀ (l : List String) (b : String),
    String.intercalate.go (a ++ b) s l = a ++ String.intercalate.go b s l := by
  intro l
  induction l with
  | nil => intro b; rfl
  | cons x xs ih =>
    intro b
    show String.intercalate.go (a ++ b ++ s ++ x) s xs = _
    rw [show a ++ b ++ s ++ x = a ++ (b ++ s ++ x) by
      simp [String.append_assoc]]
    rw [ih (b ++ s ++ x)]
    rfl

theorem intercalate_cons_cons (s a b : String) (l : List String) :
    String.intercalate s (a :: b :: l) = a ++ s ++ String.intercalate s (b :: l) := by
  show String.intercalate.go a s (b :: l) = _
  show String.intercalate.go (a ++ s ++ b) s l = _
  rw [show a ++ s ++ b = (a ++ s) ++ b from rfl]
  rw [intercalate_go_append s (a ++ s) l b]
  rfl

theorem intercalate_replicate_word (c : Char) : ∀ n : Nat,
    String.intercalate " " (List.replicate (n + 1) (⟨[c]⟩ : String)) = ⟨repWord c (n + 1)⟩ := by
  intro n
  induction n with
  | zero => rfl
  | succ m ih =>
    rw [show List.replicate (m + 2) (⟨[c]⟩ : String) =
      ⟨[c]⟩ :: List.replicate (m + 1) ⟨[c]⟩ from rfl]
    rw [show List.replicate (m + 1) (⟨[c]⟩ : String) =
      ⟨[c]⟩ :: List.replicate m ⟨[c]⟩ from rfl]
    rw [intercalate_cons_cons]
    rw [show (⟨[c]⟩ :: List.replicate m (⟨[c]⟩ : String)) = List.replicate (m + 1) ⟨[c]⟩ from rfl]
    rw [ih]
    show String.mk ([c] ++ " ".data ++ repWord c (m + 1)) = String.mk (repWord c (m + 2))
    congr 1

/-- Characters of a space-joined word list. -/
theorem mem_intercalate_space (P : Char → Prop) (hsp : P ' ') : ∀ ws : List String,
    (∀ w ∈ ws, ∀ ch ∈ w.data, P ch) →
    ∀ ch ∈ (String.intercalate " " ws).data, P ch := by
  intro ws
  induction ws with
  | nil => intro _ ch hch; cases hch
  | cons a tail ih =>
    intro hws ch hch
    cases tail with
    | nil =>
      exact hws a (by simp) ch (by simpa [String.intercalate] using hch)
    | cons b l =>
      rw [intercalate_cons_cons] at hch
      have hch' : ch ∈ a.data ∨ ch ∈ (" " : String).data ∨
          ch ∈ (String.intercalate " " (b :: l)).data := by
        have hd : (a ++ " " ++ String.intercalate " " (b :: l)).data =
            a.data ++ (" " : String).data ++ (String.intercalate " " (b :: l)).data := by
          simp
        rw [hd] at hch
        simpa using hch
      rcases hch' with h | h | h
      · exact hws a (by simp) ch h
      · rcases List.mem_cons.mp h with rfl | hfalse
        · exact hsp
        · cases hfalse
      · exact ih (fun w hw => hws w (by simp [hw])) ch h

/-- The separators alone make a space-joined list of `n` words at least
`n - 1` characters long. -/
theorem intercalate_space_length : ∀ ws : List String,
    ws.length ≤ (String.intercalate " " ws).length + 1 := by
  intro ws
  induction ws with
  | nil => simp [String.intercalate]
  | cons a tail ih =>
    cases tail with
    | nil => simp [String.intercalate]
    | cons b l =>
      rw [intercalate_cons_cons]
      have hlen : (a ++ " " ++ String.intercalate " " (b :: l)).length =
          a.length + 1 + (String.intercalate " " (b :: l)).length := by
        simp [String.length_append, show (" " : String).length = 1 from rfl]
      rw [hlen]
      simp only [List.length_cons] at ih ⊢
      omega

theorem isLower_or_space_not_upper {ch : Char}
    (h : isLowerAscii ch = true ∨ ch = ' ') : isUpperAscii ch = false := by
  rcases h with h | rfl
  · simp only [isLowerAscii, Bool.and_eq_true, decide_eq_true_eq] at h
    simp only [isUpperAscii, Bool.and_eq_false_iff, decide_eq_false_iff_not]
    omega
  · decide

theorem isLower_or_space_not_digit {ch : Char}
    (h : isLowerAscii ch = true ∨ ch = ' ') : ch.isDigit = false := by
  rcases h with h | rfl
  · simp only [isLowerAscii, Bool.and_eq_true, decide_eq_true_eq] at h
    simp only [Char.isDigit, Bool.and_eq_false_iff, decide_eq_false_iff_not]
    right
    intro hle
    have := UInt32.toNat_le_of_le (n := ch.val) (m := 57) (by norm_num) hle
    simp only [Char.toNat] at h
    omega
  · decide

theorem toLower_of_lower_or_space {ch : Char}
    (h : isLowerAscii ch = true ∨ ch = ' ') : ch.toLower = ch := by
  rcases h with h | rfl
  · simp only [isLowerAscii, Bool.and_eq_true, decide_eq_true_eq] at h
    unfold Char.toLower
    rw [if_neg (by omega)]
  · decide

theorem map_toLower_id {l : List Char}
    (h : ∀ ch ∈ l, isLowerAscii ch = true ∨ ch = ' ') : l.map Char.toLower = l := by
  induction l with
  | nil => rfl
  | cons c rest ih =>
    rw [List.map_cons, toLower_of_lower_or_space (h c (by simp)),
      ih (fun ch hch => h ch (by simp [hch]))]

theorem citationFrom_false {l : List Char}
    (h : ∀ ch ∈ l, isUpperAscii ch = false) : citationFrom l = false := by
  unfold citationFrom
  cases hdw : l.dropWhile jsWs with
  | nil => rfl
  | cons c1 r1 =>
    have hc1 : c1 ∈ l := by
      have hsub : List.Sublist (l.dropWhile jsWs) l := List.dropWhile_sublist _
      exact hsub.subset (by rw [hdw]; simp)
    simp [h c1 hc1]

theorem citationScan_false : ∀ l : List Char,
    (∀ ch ∈ l, isUpperAscii ch = false) → citationScan l = false := by
  intro l
  induction l with
  | nil => intro _; rfl
  | cons c rest ih =>
    intro h
    unfold citationScan
    by_cases hc : c = '\n'
    · rw [if_pos hc]
      rw [citationFrom_false (fun ch hch => h ch (by simp [hch])),
        ih (fun ch hch => h ch (by simp [hch]))]
      rfl
    · rw [if_neg hc]
      exact ih (fun ch hch => h ch (by simp [hch]))

theorem citationMatch_false {l : List Char}
    (h : ∀ ch ∈ l, isUpperAscii ch = false) : citationMatch l = false := by
  unfold citationMatch
  rw [citationFrom_false h, citationScan_false l h]
  rfl

theorem digitRunsGo_no_digit : ∀ l : List Char,
    (∀ ch ∈ l, ch.isDigit = false) → digitRunsGo l 0 = 0 := by
  intro l
  induction l with
  | nil => intro _; rfl
  | cons c rest ih =>
    intro h
    unfold digitRunsGo
    rw [if_neg (by simp [h c (by simp)])]
    rw [ih (fun ch hch => h ch (by simp [hch]))]
    simp

theorem nameMatchLen_none {c : Char} (hc : isUpperAscii c = false) (rest : List Char) :
    nameMatchLen (c :: rest) = none := by
  simp [nameMatchLen, hc]

theorem namePatGo_no_upper : ∀ (fuel : Nat) (l : List Char),
    (∀ ch ∈ l, isUpperAscii ch = false) → namePatGo fuel l = 0 := by
  intro fuel
  induction fuel with
  | zero => intro l _; rfl
  | succ f ih =>
    intro l h
    cases l with
    | nil => rfl
    | cons c rest =>
      unfold namePatGo
      rw [nameMatchLen_none (h c (by simp)) rest]
      exact ih rest (fun ch hch => h ch (by simp [hch]))

/-- The 500-word prose text of the C8 counterexample: the words
"colleagues created" followed by 498 one-letter words. -/
def ws500 : List String := "colleagues" :: "created" :: List.replicate 498 "a"

/-- `ws500` joined with single spaces. -/
def prose500 : String := String.intercalate " " ws500

theorem prose500_data : prose500.data = "colleagues created ".data ++ repWord 'a' 498 := by
  unfold prose500 ws500
  rw [show List.replicate 498 ("a" : String) = "a" :: List.replicate 497 "a" from rfl]
  rw [intercalate_cons_cons, intercalate_cons_cons]
  rw [show ("a" :: List.replicate 497 ("a" : String)) = List.replicate (497 + 1) ⟨['a']⟩ from rfl]
  rw [intercalate_replicate_word]
  rw [show ("colleagues created ".data : List Char) =
    "colleagues".data ++ ((" " : String).data ++ ("created".data ++ (" " : String).data)) from by
      decide]
  simp

theorem strLower_data (s : String) : (strLower s).data = s.data.map Char.toLower := rfl

theorem mkData (l : List Char) : (⟨l⟩ : String).data = l := rfl

theorem contains_cc : containsStr (strLower prose500) "colleagues created" = true := by
  have hld : (strLower prose500).data =
      "colleagues created".data ++ (' ' :: repWord 'a' 498) := by
    rw [strLower_data, prose500_data, List.map_append, map_toLower_repWord,
      show ('a'.toLower) = 'a' from by decide,
      show ("colleagues created ".data).map Char.toLower =
        "colleagues created".data ++ [' '] from by decide]
    simp
  unfold containsStr
  exact containsChars_of_pref ⟨' ' :: repWord 'a' 498, hld⟩

/-- **C8, counterexample.**  A chunk of 500 words of ordinary lowercase
prose — here "colleagues created" followed by 498 one-letter words,
with no citation or reference marker anywhere — is nonetheless
*excluded* by the filter, because the filter blocklists the literal
phrase "colleagues created"; so the claim's retention half is false as
stated. -/
theorem C8_counterexample :
    ws500.length = 500 ∧
    (∀ w ∈ ws500, w.data ≠ [] ∧ ∀ ch ∈ w.data, isLowerAscii ch = true) ∧
    passesBookFilter prose500 = false := by
  refine ⟨by simp [ws500], ?_, ?_⟩
  · intro w hw
    unfold ws500 at hw
    rcases List.mem_cons.mp hw with rfl | hw
    · exact ⟨by decide, by decide⟩
    rcases List.mem_cons.mp hw with rfl | hw
    · exact ⟨by decide, by decide⟩
    · rw [List.eq_of_mem_replicate hw]
      exact ⟨by decide, by decide⟩
  · unfold passesBookFilter
    split_ifs with h1 h2 h3 h4 h5 h6 h7 h8
    all_goals try rfl
    exact absurd (by simp [contains_cc]) h6

/-- **C8, amended.**  (1) A chunk whose content is "References", a
newline, and any following text is always excluded (the lowercased
content contains "references").  (2) A chunk consisting of 500 words of
lowercase-ASCII prose is retained *provided* the text also avoids the
filter's other blocklist: the substrings "references", "bibliography",
"copyright", "©", "colleagues created", "simulated prison" and
"points to the second conclusion" (case-insensitively).  Lowercase
letters and spaces alone already rule out the citation-regex, the
digit-run and the name-pattern checks, and 500 words are at least 499
characters, so the 200-character minimum holds. -/
theorem C8_amended :
    (∀ rest : String, passesBookFilter ("References\n" ++ rest) = false) ∧
    (∀ ws : List String, ws.length = 500 →
      (∀ w ∈ ws, w.data ≠ [] ∧ ∀ ch ∈ w.data, isLowerAscii ch = true) →
      containsStr (strLower (String.intercalate " " ws)) "references" = false →
      containsStr (strLower (String.intercalate " " ws)) "bibliography" = false →
      containsStr (strLower (String.intercalate " " ws)) "copyright" = false →
      containsStr (strLower (String.intercalate " " ws)) "©" = false →
      containsStr (strLower (String.intercalate " " ws)) "colleagues created" = false →
      containsStr (strLower (String.intercalate " " ws)) "simulated prison" = false →
      containsStr (strLower (String.intercalate " " ws)) "points to the second conclusion" = false →
      passesBookFilter (String.intercalate " " ws) = true) := by
  constructor
  · intro rest
    have hpref : containsStr (strLower ("References\n" ++ rest)) "references" = true := by
      unfold containsStr
      apply containsChars_of_pref
      refine ⟨'\n' :: rest.data.map Char.toLower, ?_⟩
      show ("References\n" ++ rest).data.map Char.toLower = _
      have hd : ("References\n" ++ rest).data = "References\n".data ++ rest.data := by simp
      rw [hd, List.map_append,
        show ("References\n".data).map Char.toLower = "references".data ++ ['\n'] from by decide]
      simp
    unfold passesBookFilter
    rw [if_pos (by simp [hpref])]
  · intro ws hlen hws h1 h2 h3 h4 h5 h6 h7
    have hclass : ∀ ch ∈ (String.intercalate " " ws).data, isLowerAscii ch = true ∨ ch = ' ' :=
      mem_intercalate_space _ (Or.inr rfl) ws (fun w hw ch hch => Or.inl ((hws w hw).2 ch hch))
    have hlowid : (strLower (String.intercalate " " ws)).data =
        (String.intercalate " " ws).data := by
      show ((String.intercalate " " ws).data.map Char.toLower) = _
      exact map_toLower_id hclass
    have hnoupper : ∀ ch ∈ (strLower (String.intercalate " " ws)).data,
        isUpperAscii ch = false := by
      rw [hlowid]
      exact fun ch hch => isLower_or_space_not_upper (hclass ch hch)
    have hnodigit : ∀ ch ∈ (strLower (String.intercalate " " ws)).data,
        ch.isDigit = false := by
      rw [hlowid]
      exact fun ch hch => isLower_or_space_not_digit (hclass ch hch)
    have hcit : citationMatch (strLower (String.intercalate " " ws)).data = false :=
      citationMatch_false hnoupper
    have hdig : digitRunsGo (strLower (String.intercalate " " ws)).data 0 = 0 :=
      digitRunsGo_no_digit _ hnodigit
    have hname : namePatCount (strLower (String.intercalate " " ws)).data = 0 :=
      namePatGo_no_upper _ _ hnoupper
    have hlen200 : ¬ ((String.intercalate " " ws).length < 200) := by
      have := intercalate_space_length ws
      rw [hlen] at this
      omega
    unfold passesBookFilter
    rw [if_neg (by simp [h1, h2])]
    rw [if_neg (by simp [hcit])]
    rw [if_neg (by simp [hdig])]
    rw [if_neg (by simp [h3, h4])]
    rw [if_neg hlen200]
    rw [if_neg (by simp [h5, h6])]
    rw [if_neg (by simp [h7])]
    rw [if_neg (by simp [hname])]

theorem contains_strLower_repA_false (pat : String) (ch : Char) (hch : ch ∈ pat.data)
    (h1 : ch ≠ 'a') (h2 : ch ≠ ' ') :
    containsStr (strLower (String.intercalate " " (List.replicate 500 ("a" : String)))) pat =
      false := by
  rw [show String.intercalate " " (List.replicate 500 ("a" : String)) =
      (⟨repWord 'a' 500⟩ : String) from by
    rw [show List.replicate 500 ("a" : String) = List.replicate (499 + 1) ⟨['a']⟩ from rfl]
    exact intercalate_replicate_word 'a' 499]
  unfold containsStr
  apply containsChars_eq_false_of_absent hch
  rw [strLower_data, mkData, map_toLower_repWord, show ('a'.toLower) = 'a' from by decide]
  intro hmem
  rcases mem_repWord _ _ _ hmem with rfl | rfl
  · exact h1 rfl
  · exact h2 rfl

/-- **C8, witness** applying both halves of the amended theorem at
concrete inputs. -/
theorem C8_witness :
    passesBookFilter ("References\n" ++ String.intercalate " " (List.replicate 500 "z")) =
      false ∧
    (List.replicate 500 ("a" : String)).length = 500 ∧
    passesBookFilter (String.intercalate " " (List.replicate 500 "a")) = true := by
  refine ⟨C8_amended.1 _, by simp, ?_⟩
  apply C8_amended.2 (List.replicate 500 "a") (by simp)
  · intro w hw
    rw [List.eq_of_mem_replicate hw]
    exact ⟨by decide, by decide⟩
  · exact contains_strLower_repA_false "references" 'r' (by decide) (by decide) (by decide)
  · exact contains_strLower_repA_false "bibliography" 'b' (by decide) (by decide) (by decide)
  · exact contains_strLower_repA_false "copyright" 'c' (by decide) (by decide) (by decide)
  · exact contains_strLower_repA_false "©" '©' (by decide) (by decide) (by decide)
  · exact contains_strLower_repA_false "colleagues created" 'c' (by decide) (by decide) (by decide)
  · exact contains_strLower_repA_false "simulated prison" 's' (by decide) (by decide) (by decide)
  · exact contains_strLower_repA_false "points to the second conclusion" 'p' (by decide)
      (by decide) (by decide)

/-! ## Claim C3: the attribution merge of the analysis route
(`app/api/analyze/route.ts`, lines 177–190) -/

/-- A past-conversation match as returned by `searchConversations`. -/
structure ConversationItem where
  conversationId : String
  scenario : Option String
  difficulty : Option String
  summary : String
deriving DecidableEq, Repr, Inhabited

/-- A scored conversation retrieval hit. -/
structure ConvSearchResult where
  item : ConversationItem
  score : ℚ
deriving DecidableEq, Repr, Inhabited

/-- `${result.item.scenario || "unknown"}` (the empty string is falsy). -/
def orUnknown : Option String → String
  | some s => if s = "" then "unknown" else s
  | none => "unknown"

/-- `"Similar conversation (" + score% + "): " + scenario`. -/
def convSourceLine (r : ConvSearchResult) : String :=
  "Similar conversation (" ++ toFixed1 (r.score * 100) ++ "%): " ++ orUnknown r.item.scenario

/-- `"Book (" + score% + "): " + title + (chapter ? " - " + chapter : "")`. -/
def bookSourceLine (r : SearchResult) : String :=
  "Book (" ++ toFixed1 (r.score * 100) ++ "%): " ++ r.item.bookTitle ++
    (match r.item.chapterTitle with
     | some c => if c = "" then "" else " - " ++ c
     | none => "")

/-- `rawReferenceSources`: conversation lines first, then book lines,
each in retrieval order. -/
def rawReferenceSources (convs : List ConvSearchResult) (chunks : List SearchResult) :
    List String :=
  convs.map convSourceLine ++ chunks.map bookSourceLine

/-- `Array.from(new Set(xs))`: drop exact duplicates, keeping first
occurrences in order. -/
def dedupGo : List String → List String → List String
  | [], _ => []
  | x :: xs, seen => if x ∈ seen then dedupGo xs seen else x :: dedupGo xs (x :: seen)

def dedupKeepFirst (xs : List String) : List String :=
  dedupGo xs []

/-- `referenceSources = Array.from(new Set(rawReferenceSources)).slice(0, 10)`. -/
def referenceSources (convs : List ConvSearchResult) (chunks : List SearchResult) :
    List String :=
  (dedupKeepFirst (rawReferenceSources convs chunks)).take 10

theorem dedupGo_nodup : ∀ xs seen : List String,
    (dedupGo xs seen).Nodup ∧ ∀ x ∈ dedupGo xs seen, x ∉ seen := by
  intro xs
  induction xs with
  | nil => intro seen; exact ⟨List.nodup_nil, by simp [dedupGo]⟩
  | cons x xs ih =>
    intro seen
    unfold dedupGo
    by_cases hx : x ∈ seen
    · rw [if_pos hx]
      exact ih seen
    · rw [if_neg hx]
      rcases ih (x :: seen) with ⟨hnd, hmem⟩
      constructor
      · refine List.nodup_cons.mpr ⟨?_, hnd⟩
        intro hx2
        exact (hmem x hx2) (by simp)
      · intro y hy
        rcases List.mem_cons.mp hy with rfl | hy
        · exact hx
        · intro hys
          exact (hmem y hy) (by simp [hys])

theorem dedupGo_subset : ∀ xs seen : List String, ∀ x ∈ dedupGo xs seen, x ∈ xs := by
  intro xs
  induction xs with
  | nil => intro seen x hx; simp [dedupGo] at hx
  | cons y xs ih =>
    intro seen x hx
    unfold dedupGo at hx
    by_cases hy : y ∈ seen
    · rw [if_pos hy] at hx
      exact List.mem_cons_of_mem _ (ih seen x hx)
    · rw [if_neg hy] at hx
      rcases List.mem_cons.mp hx with rfl | hx
      · simp
      · exact List.mem_cons_of_mem _ (ih (y :: seen) x hx)

/-- The two book hits of the attribution-dedup scenario: same
`(bookTitle, chapterTitle, pageNumber)` key, scores 0.81 and 0.64. -/
def hit81 : SearchResult := ⟨⟨"content one", "The Book", some "Chapter 3", some 12⟩, 81 / 100⟩

/-- Second hit with the same logical source key. -/
def hit64 : SearchResult := ⟨⟨"content two", "The Book", some "Chapter 3", some 12⟩, 64 / 100⟩

/-- **C3, counterexample.**  Two retrieval hits with the same
`(bookTitle, chapterTitle, pageNumber)` key and scores 0.81 and 0.64
produce TWO attribution entries, not one: the code deduplicates the
fully formatted strings (which embed the rounded score), so
same-key-different-score entries never collapse, and nothing is
re-sorted by score. -/
theorem C3_counterexample :
    hit81.item.bookTitle = hit64.item.bookTitle ∧
    hit81.item.chapterTitle = hit64.item.chapterTitle ∧
    hit81.item.pageNumber = hit64.item.pageNumber ∧
    referenceSources [] [hit81, hit64] =
      ["Book (81.0%): The Book - Chapter 3", "Book (64.0%): The Book - Chapter 3"] := by
  refine ⟨rfl, rfl, rfl, ?_⟩
  with_unfolding_all decide

/-- **C3, amended.**  The analysis route's attribution merge formats
each hit into a display string (kind, score to one decimal, source
names), concatenates conversation entries before book entries in
retrieval order, removes only *exact duplicate strings* (keeping first
occurrences, in order) and truncates to 10; it performs no per-key
collapsing and no sorting by score, so two same-key hits whose
formatted strings differ (e.g. scores 0.81 vs 0.64) stay as two
entries. -/
theorem C3_amended :
    (∀ (convs : List ConvSearchResult) (chunks : List SearchResult),
      (referenceSources convs chunks).Nodup) ∧
    (∀ (convs : List ConvSearchResult) (chunks : List SearchResult),
      (referenceSources convs chunks).length ≤ 10) ∧
    (∀ (convs : List ConvSearchResult) (chunks : List SearchResult),
      ∀ s ∈ referenceSources convs chunks, s ∈ rawReferenceSources convs chunks) ∧
    (referenceSources [] [hit81, hit64]).length = 2 := by
  refine ⟨?_, ?_, ?_, ?_⟩
  · intro convs chunks
    have h := (dedupGo_nodup (rawReferenceSources convs chunks) []).1
    exact h.sublist (List.take_sublist _ _)
  · intro convs chunks
    exact List.length_take_le _ _
  · intro convs chunks s hs
    have hs2 : s ∈ dedupKeepFirst (rawReferenceSources convs chunks) :=
      (List.take_sublist _ _).subset hs
    exact dedupGo_subset _ [] s hs2
  · with_unfolding_all decide

/-- **C3, witness** for the membership part of the amended theorem. -/
theorem C3_witness :
    ("Book (81.0%): The Book - Chapter 3" ∈ referenceSources [] [hit81, hit64]) ∧
    "Book (81.0%): The Book - Chapter 3" ∈ rawReferenceSources [] [hit81, hit64] :=
  ⟨by with_unfolding_all decide,
   C3_amended.2.2.1 [] [hit81, hit64] _ (by with_unfolding_all decide)⟩

/-! ## Claims C5 and C6: diversity-aware retrieval
(`retrieveDiverseBookKnowledge`, src/unnamed/part_008, lines 384–424) -/

/-- `bookGroups.get(title)` on the insertion-ordered `Map`, `[]` when absent. -/
def lookupGroup (t : String) : List (String × List SearchResult) → List SearchResult
  | [] => []
  | (k, g) :: rest => if k = t then g else lookupGroup t rest

/-- `bookGroups.get(title).shift()`: drop the head of the group stored
under `t` (the `Map` entry is mutated in place, insertion order kept). -/
def popGroup (t : String) : List (String × List SearchResult) → List (String × List SearchResult)
  | [] => []
  | (k, g) :: rest => if k = t then (k, g.tail) :: rest else (k, g) :: popGroup t rest

/-- One step of the grouping loop: `bookGroups.get(bookTitle)!.push(result)`,
creating the entry (at the end, per `Map` insertion order) if absent. -/
def insertResult (groups : List (String × List SearchResult)) (r : SearchResult) :
    List (String × List SearchResult) :=
  match groups with
  | [] => [(r.item.bookTitle, [r])]
  | (k, g) :: rest =>
    if k = r.item.bookTitle then (k, g ++ [r]) :: rest
    else (k, g) :: insertResult rest r

def bookGroupsGo : List SearchResult → List (String × List SearchResult) →
    List (String × List SearchResult)
  | [], acc => acc
  | r :: rs, acc => bookGroupsGo rs (insertResult acc r)

/-- The `bookGroups` map of `retrieveDiverseBookKnowledge`, as an
insertion-ordered association list. -/
def bookGroups (results : List SearchResult) : List (String × List SearchResult) :=
  bookGroupsGo results []

/-- The `while` loop of `retrieveDiverseBookKnowledge`, with enough fuel:
`books[bookIndex % books.length]` is looked up, a chunk is shifted from its
group, the book is spliced out of `books` (without advancing `bookIndex`)
when its group empties, and `bookIndex` advances otherwise. -/
def diversifyGo (topK n : Nat) :
    Nat → List (String × List SearchResult) → List String → Nat → Nat → List SearchResult
  | 0, _, _, _, _ => []
  | fuel + 1, groups, books, bookIndex, accLen =>
    if accLen < topK ∧ accLen < n ∧ books ≠ [] then
      match lookupGroup (books.getD (bookIndex % books.length) "") groups with
      | [] =>
        diversifyGo topK n fuel groups
          (books.eraseIdx (bookIndex % books.length)) bookIndex accLen
      | c :: gs =>
        if gs = [] then
          c :: diversifyGo topK n fuel
            (popGroup (books.getD (bookIndex % books.length) "") groups)
            (books.eraseIdx (bookIndex % books.length)) bookIndex (accLen + 1)
        else
          c :: diversifyGo topK n fuel
            (popGroup (books.getD (bookIndex % books.length) "") groups)
            books (bookIndex + 1) (accLen + 1)
    else []

/-- `retrieveDiverseBookKnowledge`, with the over-fetched raw result list
(`searchBookContent(query, topK * 2)`) externalised as input. -/
def retrieveDiverseBookKnowledge (results : List SearchResult) (topK : Nat) :
    List SearchResult :=
  diversifyGo topK results.length (results.length + (bookGroups results).length + 1)
    (bookGroups results) ((bookGroups results).map Prod.fst) 0 0

/-- Modelled from the SPEC's words (C5), for comparison with the code:
true round-robin as a rotation queue over the book groups in
first-encounter order — take the next-highest-scored remaining chunk
(the head) of the front group, remove the group from the rotation when
it is exhausted, otherwise move it to the back, and stop once `topK`
chunks are collected or all groups are exhausted. -/
def roundRobinSpecGo : Nat → Nat → List (List SearchResult) → List SearchResult
  | 0, _, _ => []
  | _ + 1, 0, _ => []
  | _ + 1, _ + 1, [] => []
  | fuel + 1, k + 1, g :: rest =>
    match g with
    | [] => roundRobinSpecGo fuel (k + 1) rest
    | c :: gs =>
      if gs = [] then c :: roundRobinSpecGo fuel k rest
      else c :: roundRobinSpecGo fuel k (rest ++ [gs])

/-- Spec-modelled round-robin retrieval (see `roundRobinSpecGo`). -/
def roundRobinSpec (results : List SearchResult) (topK : Nat) : List SearchResult :=
  roundRobinSpecGo (results.length + (bookGroups results).length + 1) topK
    ((bookGroups results).map Prod.snd)

/-- A raw retrieval hit with the given content, book title and score. -/
def mkRes (c t : String) (sc : ℚ) : SearchResult :=
  ⟨⟨c, t, none, none⟩, sc⟩

/-- Raw over-fetched results: books A and B with 3 chunks each, C with 2,
titles first encountered in order A, B, C, scores descending. -/
def rawC5 : List SearchResult :=
  [mkRes "a1" "A" 90, mkRes "b1" "B" 88, mkRes "c1" "C" 86,
   mkRes "a2" "A" 84, mkRes "b2" "B" 82, mkRes "c2" "C" 80,
   mkRes "a3" "A" 78, mkRes "b3" "B" 76]

/-- **C5, counterexample.**  On `rawC5` with `topK = 7`, the code does NOT
perform the claimed round-robin: when book C's group is exhausted at
`bookIndex = 5`, `books.splice` removes C without adjusting `bookIndex`,
and `5 % 2 = 1` then points at B — book A is skipped, so the seventh pick
is `b3` where true round-robin (rotation in first-encounter order) picks
`a3`. -/
theorem C5_counterexample :
    retrieveDiverseBookKnowledge rawC5 7 =
      [mkRes "a1" "A" 90, mkRes "b1" "B" 88, mkRes "c1" "C" 86,
       mkRes "a2" "A" 84, mkRes "b2" "B" 82, mkRes "c2" "C" 80,
       mkRes "b3" "B" 76] ∧
    roundRobinSpec rawC5 7 =
      [mkRes "a1" "A" 90, mkRes "b1" "B" 88, mkRes "c1" "C" 86,
       mkRes "a2" "A" 84, mkRes "b2" "B" 82, mkRes "c2" "C" 80,
       mkRes "a3" "A" 78] ∧
    retrieveDiverseBookKnowledge rawC5 7 ≠ roundRobinSpec rawC5 7 := by
  refine ⟨?_, ?_, ?_⟩ <;> with_unfolding_all decide

/-- Total words still held in the groups of the books in rotation. -/
def groupSizes (groups : List (String × List SearchResult)) (books : List String) : Nat :=
  (books.map (fun t => (lookupGroup t groups).length)).sum

theorem lookup_insert (acc : List (String × List SearchResult)) (r : SearchResult)
    (t : String) :
    lookupGroup t (insertResult acc r) =
      if r.item.bookTitle = t then lookupGroup t acc ++ [r] else lookupGroup t acc := by
  induction acc with
  | nil =>
    by_cases h : r.item.bookTitle = t
    · rw [if_pos h]
      simp [insertResult, lookupGroup, if_pos h]
    · rw [if_neg h]
      simp [insertResult, lookupGroup, if_neg h]
  | cons p rest ih =>
    obtain ⟨k, g⟩ := p
    by_cases hk : k = r.item.bookTitle
    · have : insertResult ((k, g) :: rest) r = (k, g ++ [r]) :: rest := by
        simp [insertResult, if_pos hk]
      rw [this]
      by_cases ht : k = t
      · have hrt : r.item.bookTitle = t := hk ▸ ht
        rw [if_pos hrt]
        simp [lookupGroup, if_pos ht]
      · have hrt : ¬ r.item.bookTitle = t := fun h => ht (hk.trans h)
        rw [if_neg hrt]
        simp [lookupGroup, if_neg ht]
    · have : insertResult ((k, g) :: rest) r = (k, g) :: insertResult rest r := by
        simp [insertResult, if_neg hk]
      rw [this]
      by_cases ht : k = t
      · have hrt : ¬ r.item.bookTitle = t := fun h => hk (h.symm ▸ ht)
        rw [if_neg hrt]
        simp [lookupGroup, if_pos ht]
      · simp only [lookupGroup, if_neg ht]
        exact ih

theorem lookup_bookGroupsGo : ∀ (rs : List SearchResult)
    (acc : List (String × List SearchResult)) (t : String),
    lookupGroup t (bookGroupsGo rs acc) =
      lookupGroup t acc ++ rs.filter (fun r => r.item.bookTitle = t) := by
  intro rs
  induction rs with
  | nil => intro acc t; simp [bookGroupsGo]
  | cons r rs ih =>
    intro acc t
    show lookupGroup t (bookGroupsGo rs (insertResult acc r)) = _
    rw [ih, lookup_insert]
    by_cases h : r.item.bookTitle = t
    · rw [if_pos h]
      rw [List.filter_cons_of_pos (by simpa using h)]
      simp
    · rw [if_neg h]
      rw [List.filter_cons_of_neg (by simpa using h)]

/-- The group stored under `t` is exactly the raw hits with book title `t`,
in raw order. -/
theorem lookup_bookGroups (raw : List SearchResult) (t : String) :
    lookupGroup t (bookGroups raw) = raw.filter (fun r => r.item.bookTitle = t) := by
  have := lookup_bookGroupsGo raw [] t
  simpa [bookGroups, lookupGroup] using this

theorem keys_insert (acc : List (String × List SearchResult)) (r : SearchResult) :
    (insertResult acc r).map Prod.fst =
      if r.item.bookTitle ∈ acc.map Prod.fst then acc.map Prod.fst
      else acc.map Prod.fst ++ [r.item.bookTitle] := by
  induction acc with
  | nil => simp [insertResult]
  | cons p rest ih =>
    obtain ⟨k, g⟩ := p
    by_cases hk : k = r.item.bookTitle
    · have : insertResult ((k, g) :: rest) r = (k, g ++ [r]) :: rest := by
        simp [insertResult, if_pos hk]
      rw [this]
      have hmem : r.item.bookTitle ∈ ((k, g) :: rest).map Prod.fst := by
        simp [hk.symm]
      rw [if_pos hmem]
      simp
    · have : insertResult ((k, g) :: rest) r = (k, g) :: insertResult rest r := by
        simp [insertResult, if_neg hk]
      rw [this]
      by_cases hmem : r.item.bookTitle ∈ rest.map Prod.fst
      · have hmem2 : r.item.bookTitle ∈ ((k, g) :: rest).map Prod.fst := by
          simp [hmem]
        rw [if_pos hmem2]
        simp only [List.map_cons]
        rw [ih, if_pos hmem]
      · have hmem2 : ¬ r.item.bookTitle ∈ ((k, g) :: rest).map Prod.fst := by
          simp only [List.map_cons, List.mem_cons]
          rintro (h | h)
          · exact hk h.symm
          · exact hmem h
        rw [if_neg hmem2]
        simp only [List.map_cons]
        rw [ih, if_neg hmem]
        simp

theorem keys_bookGroupsGo_nodup : ∀ (rs : List SearchResult)
    (acc : List (String × List SearchResult)),
    (acc.map Prod.fst).Nodup → ((bookGroupsGo rs acc).map Prod.fst).Nodup := by
  intro rs
  induction rs with
  | nil => intro acc h; exact h
  | cons r rs ih =>
    intro acc h
    show ((bookGroupsGo rs (insertResult acc r)).map Prod.fst).Nodup
    refine ih _ ?_
    rw [keys_insert]
    by_cases hmem : r.item.bookTitle ∈ acc.map Prod.fst
    · rw [if_pos hmem]; exact h
    · rw [if_neg hmem]
      refine List.Nodup.append h (List.nodup_singleton _) ?_
      intro x hx hx2
      rw [List.mem_singleton] at hx2
      subst hx2
      exact hmem hx

/-- The keys of `bookGroups` are distinct. -/
theorem keys_bookGroups_nodup (raw : List SearchResult) :
    ((bookGroups raw).map Prod.fst).Nodup :=
  keys_bookGroupsGo_nodup raw [] (by simp)

theorem snd_insert_nonempty (acc : List (String × List SearchResult)) (r : SearchResult)
    (h : ∀ p ∈ acc, p.2 ≠ []) : ∀ p ∈ insertResult acc r, p.2 ≠ [] := by
  induction acc with
  | nil =>
    intro p hp
    simp only [insertResult, List.mem_singleton] at hp
    subst hp
    simp
  | cons q rest ih =>
    obtain ⟨k, g⟩ := q
    intro p hp
    by_cases hk : k = r.item.bookTitle
    · rw [show insertResult ((k, g) :: rest) r = (k, g ++ [r]) :: rest by
        simp [insertResult, if_pos hk]] at hp
      rcases List.mem_cons.mp hp with rfl | hp
      · simp
      · exact h p (List.mem_cons_of_mem _ hp)
    · rw [show insertResult ((k, g) :: rest) r = (k, g) :: insertResult rest r by
        simp [insertResult, if_neg hk]] at hp
      rcases List.mem_cons.mp hp with rfl | hp
      · exact h _ (by simp)
      · exact ih (fun q hq => h q (List.mem_cons_of_mem _ hq)) p hp

theorem snd_bookGroupsGo_nonempty : ∀ (rs : List SearchResult)
    (acc : List (String × List SearchResult)),
    (∀ p ∈ acc, p.2 ≠ []) → ∀ p ∈ bookGroupsGo rs acc, p.2 ≠ [] := by
  intro rs
  induction rs with
  | nil => intro acc h; exact h
  | cons r rs ih =>
    intro acc h
    exact ih _ (snd_insert_nonempty acc r h)

/-- Every group of `bookGroups` is nonempty. -/
theorem snd_bookGroups_nonempty (raw : List SearchResult) :
    ∀ p ∈ bookGroups raw, p.2 ≠ [] :=
  snd_bookGroupsGo_nonempty raw [] (by simp)

theorem lookup_mem_of_key (t : String) :
    ∀ groups : List (String × List SearchResult),
    t ∈ groups.map Prod.fst → (t, lookupGroup t groups) ∈ groups := by
  intro groups
  induction groups with
  | nil => intro h; simp at h
  | cons p rest ih =>
    obtain ⟨k, g⟩ := p
    intro h
    by_cases hk : k = t
    · subst hk
      simp [lookupGroup]
    · have ht : t ∈ rest.map Prod.fst := by
        simp only [List.map_cons, List.mem_cons] at h
        rcases h with h | h
        · exact absurd h.symm hk
        · exact h
      simp only [lookupGroup, if_neg hk]
      exact List.mem_cons_of_mem _ (ih ht)

theorem lookup_pop_self (t : String) : ∀ groups : List (String × List SearchResult),
    t ∈ groups.map Prod.fst →
    lookupGroup t (popGroup t groups) = (lookupGroup t groups).tail := by
  intro groups
  induction groups with
  | nil => intro h; simp at h
  | cons p rest ih =>
    obtain ⟨k, g⟩ := p
    intro h
    by_cases hk : k = t
    · simp [popGroup, lookupGroup, if_pos hk]
    · have ht : t ∈ rest.map Prod.fst := by
        simp only [List.map_cons, List.mem_cons] at h
        rcases h with h | h
        · exact absurd h.symm hk
        · exact h
      simp only [popGroup, lookupGroup, if_neg hk]
      exact ih ht

theorem lookup_pop_ne (t u : String) (hne : u ≠ t) :
    ∀ groups : List (String × List SearchResult),
    lookupGroup u (popGroup t groups) = lookupGroup u groups := by
  intro groups
  induction groups with
  | nil => simp [popGroup]
  | cons p rest ih =>
    obtain ⟨k, g⟩ := p
    by_cases hk : k = t
    · have hku : ¬ k = u := fun h => hne (h.symm.trans hk)
      simp only [popGroup, if_pos hk, lookupGroup, if_neg hku]
    · simp only [popGroup, if_neg hk, lookupGroup]
      by_cases hu : k = u
      · rw [if_pos hu, if_pos hu]
      · rw [if_neg hu, if_neg hu]
        exact ih

theorem getD_mem_of_lt {α : Type} [Inhabited α] (d : α) :
    ∀ (l : List α) (p : Nat), p < l.length → l.getD p d ∈ l := by
  intro l
  induction l with
  | nil => intro p hp; simp at hp
  | cons a l ih =>
    intro p hp
    cases p with
    | zero => simp [List.getD]
    | succ q =>
      have hq : q < l.length := by simpa using hp
      have : (a :: l).getD (q + 1) d = l.getD q d := by simp [List.getD]
      rw [this]
      exact List.mem_cons_of_mem _ (ih q hq)

theorem get_not_mem_eraseIdx {α : Type} :
    ∀ (l : List α) (p : Nat) (hp : p < l.length), l.Nodup →
      l.get ⟨p, hp⟩ ∉ l.eraseIdx p := by
  intro l
  induction l with
  | nil => intro p hp; simp at hp
  | cons a l ih =>
    intro p hp hnd
    rcases List.nodup_cons.mp hnd with ⟨ha, hl⟩
    cases p with
    | zero => simpa using ha
    | succ q =>
      have hq : q < l.length := by simpa using hp
      have hget : (a :: l).get ⟨q + 1, hp⟩ = l.get ⟨q, hq⟩ := rfl
      have herase : (a :: l).eraseIdx (q + 1) = a :: l.eraseIdx q := rfl
      rw [hget, herase]
      intro hmem
      rcases List.mem_cons.mp hmem with heq | hmem2
      · exact ha (heq ▸ List.get_mem l q hq)
      · exact ih q hq hl hmem2

theorem sum_map_eraseIdx {α : Type} (f : α → Nat) :
    ∀ (l : List α) (p : Nat) (hp : p < l.length),
      ((l.eraseIdx p).map f).sum + f (l.get ⟨p, hp⟩) = (l.map f).sum := by
  intro l
  induction l with
  | nil => intro p hp; simp at hp
  | cons a l ih =>
    intro p hp
    cases p with
    | zero => simp [List.eraseIdx]; omega
    | succ q =>
      have hq : q < l.length := by simpa using hp
      have herase : (a :: l).eraseIdx (q + 1) = a :: l.eraseIdx q := rfl
      have hget : (a :: l).get ⟨q + 1, hp⟩ = l.get ⟨q, hq⟩ := rfl
      rw [herase, hget]
      simp only [List.map_cons, List.sum_cons]
      have := ih q hq
      omega

theorem sum_map_update {α : Type} [DecidableEq α] (f g : α → Nat) :
    ∀ (l : List α) (t : α), l.Nodup → t ∈ l →
      (∀ x ∈ l, x ≠ t → g x = f x) → g t + 1 = f t →
      (l.map g).sum + 1 = (l.map f).sum := by
  intro l
  induction l with
  | nil => intro t _ ht; simp at ht
  | cons a l ih =>
    intro t hnd ht hoff hupd
    rcases List.nodup_cons.mp hnd with ⟨ha, hl⟩
    simp only [List.map_cons, List.sum_cons]
    rcases List.mem_cons.mp ht with rfl | htl
    · have hsame : l.map g = l.map f := by
        refine List.map_congr_left ?_
        intro x hx
        exact hoff x (List.mem_cons_of_mem _ hx) (fun h => ha (h ▸ hx))
      rw [hsame]
      omega
    · have hat : a ≠ t := fun h => ha (h ▸ htl)
      have hga : g a = f a := hoff a (List.mem_cons.mpr (Or.inl rfl)) hat
      have := ih t hl htl (fun x hx hxt => hoff x (List.mem_cons_of_mem _ hx) hxt) hupd
      omega

theorem eraseIdx_drop {α : Type} :
    ∀ (l : List α) (p : Nat), (l.eraseIdx p).drop p = l.drop (p + 1) := by
  intro l
  induction l with
  | nil => intro p; simp [List.eraseIdx]
  | cons a l ih =>
    intro p
    cases p with
    | zero => simp [List.eraseIdx]
    | succ q =>
      have herase : (a :: l).eraseIdx (q + 1) = a :: l.eraseIdx q := rfl
      rw [herase]
      have h1 : (a :: l.eraseIdx q).drop (q + 1) = (l.eraseIdx q).drop q := rfl
      have h2 : (a :: l).drop (q + 1 + 1) = l.drop (q + 1) := rfl
      rw [h1, h2, ih]

theorem le_sum_of_mem_map {α : Type} (f : α → Nat) :
    ∀ (l : List α) (t : α), t ∈ l → f t ≤ (l.map f).sum := by
  intro l
  induction l with
  | nil => intro t ht; simp at ht
  | cons a l ih =>
    intro t ht
    simp only [List.map_cons, List.sum_cons]
    rcases List.mem_cons.mp ht with rfl | htl
    · omega
    · have := ih t htl
      omega

theorem getD_eq_get {α : Type} [Inhabited α] (d : α) :
    ∀ (l : List α) (p : Nat) (hp : p < l.length), l.getD p d = l.get ⟨p, hp⟩ := by
  intro l
  induction l with
  | nil => intro p hp; simp at hp
  | cons a l ih =>
    intro p hp
    cases p with
    | zero => rfl
    | succ q =>
      have hq : q < l.length := by simpa using hp
      have h1 : (a :: l).getD (q + 1) d = l.getD q d := rfl
      have h2 : (a :: l).get ⟨q + 1, hp⟩ = l.get ⟨q, hq⟩ := rfl
      rw [h1, h2, ih q hq]

theorem diversifyGo_step_stop (topK n fuel : Nat)
    (groups : List (String × List SearchResult)) (books : List String) (v acc : Nat)
    (h : ¬(acc < topK ∧ acc < n ∧ books ≠ [])) :
    diversifyGo topK n (fuel + 1) groups books v acc = [] := by
  simp only [diversifyGo]
  rw [if_neg h]

theorem diversifyGo_step_skip (topK n fuel : Nat)
    (groups : List (String × List SearchResult)) (books : List String) (v acc : Nat)
    (h : acc < topK ∧ acc < n ∧ books ≠ [])
    (hlook : lookupGroup (books.getD (v % books.length) "") groups = []) :
    diversifyGo topK n (fuel + 1) groups books v acc =
      diversifyGo topK n fuel groups (books.eraseIdx (v % books.length)) v acc := by
  simp only [diversifyGo]
  rw [if_pos h, hlook]

theorem diversifyGo_step_exhaust (topK n fuel : Nat)
    (groups : List (String × List SearchResult)) (books : List String) (v acc : Nat)
    (h : acc < topK ∧ acc < n ∧ books ≠ []) (c : SearchResult)
    (hlook : lookupGroup (books.getD (v % books.length) "") groups = [c]) :
    diversifyGo topK n (fuel + 1) groups books v acc =
      c :: diversifyGo topK n fuel
        (popGroup (books.getD (v % books.length) "") groups)
        (books.eraseIdx (v % books.length)) v (acc + 1) := by
  simp only [diversifyGo]
  rw [if_pos h, hlook]
  rfl

theorem diversifyGo_step_advance (topK n fuel : Nat)
    (groups : List (String × List SearchResult)) (books : List String) (v acc : Nat)
    (h : acc < topK ∧ acc < n ∧ books ≠ []) (c : SearchResult) (gs : List SearchResult)
    (hlook : lookupGroup (books.getD (v % books.length) "") groups = c :: gs)
    (hgs : gs ≠ []) :
    diversifyGo topK n (fuel + 1) groups books v acc =
      c :: diversifyGo topK n fuel
        (popGroup (books.getD (v % books.length) "") groups)
        books (v + 1) (acc + 1) := by
  simp only [diversifyGo]
  rw [if_pos h, hlook]
  simp [hgs]

theorem key_mem_of_lookup_ne (t : String) :
    ∀ groups : List (String × List SearchResult),
    lookupGroup t groups ≠ [] → t ∈ groups.map Prod.fst := by
  intro groups
  induction groups with
  | nil => intro h; simp [lookupGroup] at h
  | cons q rest ih =>
    obtain ⟨k, g⟩ := q
    intro h
    by_cases hk : k = t
    · simp [hk]
    · simp only [lookupGroup, if_neg hk] at h
      simp only [List.map_cons, List.mem_cons]
      exact Or.inr (ih h)

/-- Invariant induction: with distinct books in rotation, every rotated
book's group nonempty, enough fuel, and `n` equal to the collected count
plus the words remaining, the loop emits exactly
`min (topK - accLen) remaining` results. -/
theorem diversifyGo_length (topK n : Nat) :
    ∀ (fuel : Nat) (groups : List (String × List SearchResult)) (books : List String)
      (v accLen : Nat),
      books.Nodup → (∀ t ∈ books, lookupGroup t groups ≠ []) →
      groupSizes groups books + books.length ≤ fuel →
      n = accLen + groupSizes groups books →
      (diversifyGo topK n fuel groups books v accLen).length =
        min (topK - accLen) (groupSizes groups books) := by
  intro fuel
  induction fuel with
  | zero =>
    intro groups books v acc hnd hne hfuel hn
    have hb : books = [] := by
      cases books with
      | nil => rfl
      | cons b bs => simp at hfuel
    subst hb
    simp [diversifyGo, groupSizes]
  | succ f ih =>
    intro groups books v acc hnd hne hfuel hn
    by_cases hguard : acc < topK ∧ acc < n ∧ books ≠ []
    · obtain ⟨h1, h2, h3⟩ := hguard
      have hlen : 0 < books.length := List.length_pos.mpr h3
      have hplt : v % books.length < books.length := Nat.mod_lt _ hlen
      have htmem : books.getD (v % books.length) "" ∈ books :=
        getD_mem_of_lt _ _ _ hplt
      have htget : books.getD (v % books.length) "" = books.get ⟨v % books.length, hplt⟩ :=
        getD_eq_get _ _ _ hplt
      have hnotmem : books.getD (v % books.length) "" ∉ books.eraseIdx (v % books.length) := by
        rw [htget]
        exact get_not_mem_eraseIdx _ _ _ hnd
      have hsub : List.Sublist (books.eraseIdx (v % books.length)) books :=
        List.eraseIdx_sublist _ _
      have hnd2 : (books.eraseIdx (v % books.length)).Nodup := hsub.nodup hnd
      cases hlook : lookupGroup (books.getD (v % books.length) "") groups with
      | nil => exact absurd hlook (hne _ htmem)
      | cons c gs =>
        have hkey : books.getD (v % books.length) "" ∈ groups.map Prod.fst := by
          refine key_mem_of_lookup_ne _ groups ?_
          rw [hlook]
          exact List.cons_ne_nil _ _
        have hle : (lookupGroup (books.getD (v % books.length) "") groups).length ≤
            (books.map (fun t => (lookupGroup t groups).length)).sum :=
          le_sum_of_mem_map (fun t => (lookupGroup t groups).length) books _ htmem
        rw [hlook] at hle
        simp only [List.length_cons] at hle
        have hS1 : 1 ≤ groupSizes groups books := by
          unfold groupSizes
          omega
        have h0 := sum_map_eraseIdx (fun t => (lookupGroup t groups).length)
          books (v % books.length) hplt
        simp only at h0
        rw [← htget, hlook] at h0
        simp only [List.length_cons] at h0
        have h0g : groupSizes groups (books.eraseIdx (v % books.length)) +
            gs.length + 1 = groupSizes groups books := by
          unfold groupSizes
          omega
        cases gs with
        | nil =>
          rw [diversifyGo_step_exhaust topK n f groups books v acc ⟨h1, h2, h3⟩ c hlook]
          have hcong : groupSizes (popGroup (books.getD (v % books.length) "") groups)
              (books.eraseIdx (v % books.length)) =
              groupSizes groups (books.eraseIdx (v % books.length)) := by
            unfold groupSizes
            congr 1
            refine List.map_congr_left ?_
            intro t ht
            have htne : t ≠ books.getD (v % books.length) "" := by
              intro hteq
              exact hnotmem (hteq ▸ ht)
            rw [lookup_pop_ne _ _ htne]
          have hne2 : ∀ t ∈ books.eraseIdx (v % books.length),
              lookupGroup t (popGroup (books.getD (v % books.length) "") groups) ≠ [] := by
            intro t ht
            have htne : t ≠ books.getD (v % books.length) "" := by
              intro hteq
              exact hnotmem (hteq ▸ ht)
            rw [lookup_pop_ne _ _ htne]
            exact hne t (hsub.subset ht)
          have hel : (books.eraseIdx (v % books.length)).length + 1 = books.length := by
            rw [List.length_eraseIdx_of_lt hplt]
            omega
          simp only [List.length_nil] at h0g
          have hfuel2 : groupSizes (popGroup (books.getD (v % books.length) "") groups)
              (books.eraseIdx (v % books.length)) +
              (books.eraseIdx (v % books.length)).length ≤ f := by
            rw [hcong]
            omega
          have hn2 : n = (acc + 1) +
              groupSizes (popGroup (books.getD (v % books.length) "") groups)
                (books.eraseIdx (v % books.length)) := by
            rw [hcong]
            omega
          rw [List.length_cons]
          rw [ih _ _ v (acc + 1) hnd2 hne2 hfuel2 hn2]
          rw [hcong]
          omega
        | cons c2 gs2 =>
          rw [diversifyGo_step_advance topK n f groups books v acc ⟨h1, h2, h3⟩ c
            (c2 :: gs2) hlook (List.cons_ne_nil _ _)]
          have hupd : groupSizes (popGroup (books.getD (v % books.length) "") groups) books
              + 1 = groupSizes groups books := by
            unfold groupSizes
            refine sum_map_update _ _ books (books.getD (v % books.length) "") hnd htmem
              ?_ ?_
            · intro x hx hxne
              rw [lookup_pop_ne _ _ hxne]
            · rw [lookup_pop_self _ _ hkey, hlook]
              simp
          have hne2 : ∀ t ∈ books,
              lookupGroup t (popGroup (books.getD (v % books.length) "") groups) ≠ [] := by
            intro t ht
            by_cases hteq : t = books.getD (v % books.length) ""
            · subst hteq
              rw [lookup_pop_self _ _ hkey, hlook]
              simp
            · rw [lookup_pop_ne _ _ hteq]
              exact hne t ht
          have hfuel2 : groupSizes (popGroup (books.getD (v % books.length) "") groups)
              books + books.length ≤ f := by
            omega
          have hn2 : n = (acc + 1) +
              groupSizes (popGroup (books.getD (v % books.length) "") groups) books := by
            omega
          rw [List.length_cons]
          rw [ih _ _ (v + 1) (acc + 1) hnd hne2 hfuel2 hn2]
          omega
    · rw [diversifyGo_step_stop topK n f groups books v acc hguard]
      by_cases hb : books = []
      · subst hb
        simp [groupSizes]
      · have h4 : ¬(acc < topK) ∨ ¬(acc < n) := by
          by_contra hcon
          push_neg at hcon
          exact hguard ⟨hcon.1, hcon.2, hb⟩
        simp only [List.length_nil]
        rcases h4 with h4 | h4
        · rw [show topK - acc = 0 from by omega]
          simp
        · have hS : groupSizes groups books = 0 := by omega
          rw [hS]
          simp

theorem drop_eq_get_cons {α : Type} : ∀ (l : List α) (v : Nat) (h : v < l.length),
    l.drop v = l.get ⟨v, h⟩ :: l.drop (v + 1) := by
  intro l
  induction l with
  | nil => intro v h; simp at h
  | cons a l ih =>
    intro v h
    cases v with
    | zero => rfl
    | succ w =>
      have hw : w < l.length := by simpa using h
      have h1 : (a :: l).drop (w + 1) = l.drop w := rfl
      have h2 : (a :: l).get ⟨w + 1, h⟩ = l.get ⟨w, hw⟩ := rfl
      have h3 : (a :: l).drop (w + 1 + 1) = l.drop (w + 1) := rfl
      rw [h1, h2, h3, ih w hw]

/-- First-cycle invariant: as long as the initial rotation has not wrapped,
the picks are the heads of the groups of the books still ahead of the
pointer, in rotation order. -/
theorem diversifyGo_first_cycle (topK n : Nat) :
    ∀ (fuel : Nat) (groups : List (String × List SearchResult)) (books : List String)
      (v accLen : Nat),
      books.Nodup → (∀ t ∈ books, lookupGroup t groups ≠ []) →
      groupSizes groups books + books.length ≤ fuel →
      n = accLen + groupSizes groups books →
      v ≤ books.length →
      (diversifyGo topK n fuel groups books v accLen).take
          (min (topK - accLen) (books.length - v)) =
        ((books.drop v).take (min (topK - accLen) (books.length - v))).map
          (fun t => (lookupGroup t groups).headD default) := by
  intro fuel
  induction fuel with
  | zero =>
    intro groups books v acc hnd hne hfuel hn hv
    have hb : books = [] := by
      cases books with
      | nil => rfl
      | cons b bs => simp at hfuel
    subst hb
    simp [diversifyGo]
  | succ f ih =>
    intro groups books v acc hnd hne hfuel hn hv
    by_cases hguard : acc < topK ∧ acc < n ∧ books ≠ []
    · obtain ⟨h1, h2, h3⟩ := hguard
      have hlen : 0 < books.length := List.length_pos.mpr h3
      by_cases hvlt : v < books.length
      case neg =>
        have hveq : v = books.length := by omega
        rw [show books.length - v = 0 from by omega]
        simp
      case pos =>
      have hmod : v % books.length = v := Nat.mod_eq_of_lt hvlt
      have hplt : v % books.length < books.length := by rw [hmod]; exact hvlt
      have htmem : books.getD v "" ∈ books := by
        have := getD_mem_of_lt "" books (v % books.length) hplt
        rwa [hmod] at this
      have htget : books.getD v "" = books.get ⟨v, hvlt⟩ := getD_eq_get _ _ _ hvlt
      have hnotmem : books.getD v "" ∉ books.eraseIdx v := by
        rw [htget]
        exact get_not_mem_eraseIdx _ _ _ hnd
      have hsub : List.Sublist (books.eraseIdx v) books := List.eraseIdx_sublist _ _
      have hnd2 : (books.eraseIdx v).Nodup := hsub.nodup hnd
      have hdrop : books.drop v = books.get ⟨v, hvlt⟩ :: books.drop (v + 1) :=
        drop_eq_get_cons _ _ hvlt
      have hdnd : (books.drop v).Nodup := (List.drop_sublist _ _).nodup hnd
      have hheadnot : books.get ⟨v, hvlt⟩ ∉ books.drop (v + 1) := by
        rw [hdrop] at hdnd
        exact (List.nodup_cons.mp hdnd).1
      cases hlook : lookupGroup (books.getD v "") groups with
      | nil => exact absurd hlook (hne _ htmem)
      | cons c gs =>
        have hlook2 : lookupGroup (books.getD (v % books.length) "") groups = c :: gs := by
          rw [hmod]
          exact hlook
        have hkey : books.getD v "" ∈ groups.map Prod.fst := by
          refine key_mem_of_lookup_ne _ groups ?_
          rw [hlook]
          exact List.cons_ne_nil _ _
        have hle : (lookupGroup (books.getD v "") groups).length ≤
            (books.map (fun t => (lookupGroup t groups).length)).sum := by
          have := le_sum_of_mem_map (fun t => (lookupGroup t groups).length)
            books _ htmem
          simpa using this
        rw [hlook] at hle
        simp only [List.length_cons] at hle
        have h0 := sum_map_eraseIdx (fun t => (lookupGroup t groups).length)
          books v hvlt
        simp only at h0
        rw [← htget, hlook] at h0
        simp only [List.length_cons] at h0
        have h0g : groupSizes groups (books.eraseIdx v) + gs.length + 1 =
            groupSizes groups books := by
          unfold groupSizes
          omega
        obtain ⟨k0, hk0⟩ : ∃ k0, min (topK - acc) (books.length - v) = k0 + 1 :=
          ⟨min (topK - acc) (books.length - v) - 1, by omega⟩
        have hcongr_maps : ∀ gr2 : List (String × List SearchResult),
            (∀ u ∈ books.drop (v + 1), lookupGroup u gr2 = lookupGroup u groups) →
            ((books.drop (v + 1)).take k0).map (fun t => (lookupGroup t gr2).headD default) =
              ((books.drop (v + 1)).take k0).map
                (fun t => (lookupGroup t groups).headD default) := by
          intro gr2 hsame
          refine List.map_congr_left ?_
          intro u hu
          rw [hsame u ((List.take_sublist _ _).subset hu)]
        have hpop_same : ∀ u ∈ books.drop (v + 1),
            lookupGroup u (popGroup (books.getD v "") groups) = lookupGroup u groups := by
          intro u hu
          have hune : u ≠ books.getD v "" := by
            intro hueq
            rw [htget] at hueq
            exact hheadnot (hueq ▸ hu)
          exact lookup_pop_ne _ _ hune _
        have hrhs : ((books.drop v).take (min (topK - acc) (books.length - v))).map
              (fun t => (lookupGroup t groups).headD default) =
            c :: ((books.drop (v + 1)).take k0).map
              (fun t => (lookupGroup t groups).headD default) := by
          rw [hk0, hdrop]
          simp only [List.take_succ_cons, List.map_cons]
          rw [← htget, hlook]
          simp
        cases gs with
        | nil =>
          rw [diversifyGo_step_exhaust topK n f groups books v acc ⟨h1, h2, h3⟩ c
            (by rw [hmod]; exact hlook)]
          simp only [List.length_nil] at h0g
          have hne2 : ∀ t ∈ books.eraseIdx v,
              lookupGroup t (popGroup (books.getD v "") groups) ≠ [] := by
            intro t ht
            have htne : t ≠ books.getD v "" := by
              intro hteq
              exact hnotmem (hteq ▸ ht)
            rw [lookup_pop_ne _ _ htne]
            exact hne t (hsub.subset ht)
          have hel : (books.eraseIdx v).length + 1 = books.length := by
            rw [List.length_eraseIdx_of_lt hvlt]
            omega
          have hcong : groupSizes (popGroup (books.getD v "") groups)
              (books.eraseIdx v) = groupSizes groups (books.eraseIdx v) := by
            unfold groupSizes
            congr 1
            refine List.map_congr_left ?_
            intro t ht
            have htne : t ≠ books.getD v "" := by
              intro hteq
              exact hnotmem (hteq ▸ ht)
            rw [lookup_pop_ne _ _ htne]
          have hfuel2 : groupSizes (popGroup (books.getD v "") groups)
              (books.eraseIdx v) + (books.eraseIdx v).length ≤ f := by
            rw [hcong]
            omega
          have hn2 : n = (acc + 1) + groupSizes (popGroup (books.getD v "") groups)
              (books.eraseIdx v) := by
            rw [hcong]
            omega
          have hv2 : v ≤ (books.eraseIdx v).length := by omega
          have hih := ih (popGroup (books.getD v "") groups) (books.eraseIdx v)
            v (acc + 1) hnd2 hne2 hfuel2 hn2 hv2
          have hmin2 : min (topK - (acc + 1)) ((books.eraseIdx v).length - v) = k0 := by
            omega
          rw [hmin2] at hih
          rw [eraseIdx_drop] at hih
          rw [hmod, hrhs, hk0, List.take_succ_cons]
          rw [hih, hcongr_maps _ hpop_same]
        | cons c2 gs2 =>
          rw [diversifyGo_step_advance topK n f groups books v acc ⟨h1, h2, h3⟩ c
            (c2 :: gs2) hlook2 (List.cons_ne_nil _ _)]
          have hne2 : ∀ t ∈ books,
              lookupGroup t (popGroup (books.getD v "") groups) ≠ [] := by
            intro t ht
            by_cases hteq : t = books.getD v ""
            · subst hteq
              rw [lookup_pop_self _ _ hkey, hlook]
              simp
            · rw [lookup_pop_ne _ _ hteq]
              exact hne t ht
          have hupd : groupSizes (popGroup (books.getD v "") groups) books + 1 =
              groupSizes groups books := by
            unfold groupSizes
            refine sum_map_update _ _ books (books.getD v "") hnd htmem ?_ ?_
            · intro x hx hxne
              rw [lookup_pop_ne _ _ hxne]
            · rw [lookup_pop_self _ _ hkey, hlook]
              simp
          have hfuel2 : groupSizes (popGroup (books.getD v "") groups) books +
              books.length ≤ f := by
            omega
          have hn2 : n = (acc + 1) + groupSizes (popGroup (books.getD v "") groups)
              books := by
            omega
          have hv2 : v + 1 ≤ books.length := hvlt
          have hih := ih (popGroup (books.getD v "") groups) books
            (v + 1) (acc + 1) hnd hne2 hfuel2 hn2 hv2
          have hmin2 : min (topK - (acc + 1)) (books.length - (v + 1)) = k0 := by
            omega
          rw [hmin2] at hih
          rw [hmod, hrhs, hk0, List.take_succ_cons]
          rw [hih, hcongr_maps _ hpop_same]
    · rw [diversifyGo_step_stop topK n f groups books v acc hguard]
      by_cases hb : books = []
      · subst hb
        simp
      · have h4 : ¬(acc < topK) ∨ ¬(acc < n) := by
          by_contra hcon
          push_neg at hcon
          exact hguard ⟨hcon.1, hcon.2, hb⟩
        rcases h4 with h4 | h4
        · rw [show topK - acc = 0 from by omega]
          simp
        · have hS : groupSizes groups books = 0 := by omega
          exfalso
          cases books with
          | nil => exact hb rfl
          | cons b bs =>
            have hb1 : 0 < (lookupGroup b groups).length :=
              List.length_pos.mpr (hne b (List.mem_cons.mpr (Or.inl rfl)))
            have hble : (lookupGroup b groups).length ≤
                ((b :: bs).map (fun t => (lookupGroup t groups).length)).sum :=
              le_sum_of_mem_map (fun t => (lookupGroup t groups).length) (b :: bs) b
                (List.mem_cons.mpr (Or.inl rfl))
            unfold groupSizes at hS
            omega

theorem sizes_insert (acc : List (String × List SearchResult)) (r : SearchResult) :
    ((insertResult acc r).map (fun p => p.2.length)).sum =
      (acc.map (fun p => p.2.length)).sum + 1 := by
  induction acc with
  | nil => simp [insertResult]
  | cons q rest ihq =>
    obtain ⟨k, g⟩ := q
    by_cases hk : k = r.item.bookTitle
    · rw [show insertResult ((k, g) :: rest) r = (k, g ++ [r]) :: rest from by
        simp [insertResult, if_pos hk]]
      simp only [List.map_cons, List.sum_cons, List.length_append, List.length_cons,
        List.length_nil]
      omega
    · rw [show insertResult ((k, g) :: rest) r = (k, g) :: insertResult rest r from by
        simp [insertResult, if_neg hk]]
      simp only [List.map_cons, List.sum_cons]
      omega

theorem sizes_bookGroupsGo : ∀ (rs : List SearchResult)
    (acc : List (String × List SearchResult)),
    ((bookGroupsGo rs acc).map (fun p => p.2.length)).sum =
      (acc.map (fun p => p.2.length)).sum + rs.length := by
  intro rs
  induction rs with
  | nil => intro acc; simp [bookGroupsGo]
  | cons r rs ih =>
    intro acc
    show ((bookGroupsGo rs (insertResult acc r)).map (fun p => p.2.length)).sum = _
    rw [ih, sizes_insert]
    simp only [List.length_cons]
    omega

/-- The groups of `bookGroups` hold every raw result exactly once. -/
theorem sizes_bookGroups (raw : List SearchResult) :
    ((bookGroups raw).map (fun p => p.2.length)).sum = raw.length := by
  have := sizes_bookGroupsGo raw []
  simpa [bookGroups] using this

theorem groupSizes_of_keys : ∀ groups : List (String × List SearchResult),
    (groups.map Prod.fst).Nodup →
    groupSizes groups (groups.map Prod.fst) = (groups.map (fun p => p.2.length)).sum := by
  intro groups
  induction groups with
  | nil => intro h; simp [groupSizes]
  | cons q rest ihq =>
    obtain ⟨k, g⟩ := q
    intro h
    simp only [List.map_cons] at h
    rcases List.nodup_cons.mp h with ⟨hk, hrest⟩
    unfold groupSizes
    simp only [List.map_cons, List.sum_cons]
    have hhead : lookupGroup k ((k, g) :: rest) = g := by simp [lookupGroup]
    rw [hhead]
    have hcongr : (rest.map Prod.fst).map
          (fun t => (lookupGroup t ((k, g) :: rest)).length) =
        (rest.map Prod.fst).map (fun t => (lookupGroup t rest).length) := by
      refine List.map_congr_left ?_
      intro t ht
      have hkt : ¬ k = t := fun he => hk (he ▸ ht)
      simp [lookupGroup, hkt]
    rw [hcongr]
    have ihq2 := ihq hrest
    unfold groupSizes at ihq2
    rw [ihq2]

theorem lookup_keys_ne_nil (raw : List SearchResult) :
    ∀ t ∈ (bookGroups raw).map Prod.fst, lookupGroup t (bookGroups raw) ≠ [] := by
  intro t ht
  exact snd_bookGroups_nonempty raw _ (lookup_mem_of_key t _ ht)

/-- **C5, amended.**  What `retrieveDiverseBookKnowledge` actually
guarantees: (1) it returns exactly `min topK raw.length` chunks; (2) on
the FIRST pass of the rotation its first `min topK (#books)` picks are
the heads (the highest-scored remaining chunk, the raw list being
score-sorted) of the distinct book groups, in the order the titles are
first encountered in the raw result list.  The full round-robin of the
original claim fails once a group is exhausted: `books.splice` removes
the book without adjusting `bookIndex`, and the pointer is reduced
modulo the SHRUNKEN array, so later rounds can skip books
(`C5_counterexample`). -/
theorem C5_amended :
    (∀ (raw : List SearchResult) (topK : Nat),
      (retrieveDiverseBookKnowledge raw topK).length = min topK raw.length) ∧
    (∀ (raw : List SearchResult) (topK : Nat),
      (retrieveDiverseBookKnowledge raw topK).take
          (min topK ((bookGroups raw).map Prod.fst).length) =
        (((bookGroups raw).map Prod.fst).take
            (min topK ((bookGroups raw).map Prod.fst).length)).map
          (fun t => (lookupGroup t (bookGroups raw)).headD default)) := by
  have key : ∀ raw : List SearchResult,
      groupSizes (bookGroups raw) ((bookGroups raw).map Prod.fst) = raw.length := by
    intro raw
    rw [groupSizes_of_keys _ (keys_bookGroups_nodup raw), sizes_bookGroups]
  constructor
  · intro raw topK
    unfold retrieveDiverseBookKnowledge
    rw [diversifyGo_length topK raw.length _ _ _ 0 0 (keys_bookGroups_nodup raw)
      (lookup_keys_ne_nil raw) ?_ ?_]
    · rw [key raw]
      simp
    · rw [key raw, List.length_map]
      omega
    · rw [key raw]
      omega
  · intro raw topK
    unfold retrieveDiverseBookKnowledge
    have h := diversifyGo_first_cycle topK raw.length
      (raw.length + (bookGroups raw).length + 1) (bookGroups raw)
      ((bookGroups raw).map Prod.fst) 0 0 (keys_bookGroups_nodup raw)
      (lookup_keys_ne_nil raw) ?_ ?_ (Nat.zero_le _)
    · simpa using h
    · rw [key raw, List.length_map]
      omega
    · rw [key raw]
      omega

theorem titles_insert (acc : List (String × List SearchResult)) (r : SearchResult)
    (h : ∀ p ∈ acc, ∀ x ∈ p.2, x.item.bookTitle = p.1) :
    ∀ p ∈ insertResult acc r, ∀ x ∈ p.2, x.item.bookTitle = p.1 := by
  induction acc with
  | nil =>
    intro p hp x hx
    simp only [insertResult, List.mem_singleton] at hp
    subst hp
    simp only [List.mem_singleton] at hx
    subst hx
    rfl
  | cons q rest ih =>
    obtain ⟨k, g⟩ := q
    intro p hp x hx
    by_cases hk : k = r.item.bookTitle
    · rw [show insertResult ((k, g) :: rest) r = (k, g ++ [r]) :: rest from by
        simp [insertResult, if_pos hk]] at hp
      rcases List.mem_cons.mp hp with rfl | hp2
      · rcases List.mem_append.mp hx with hx2 | hx2
        · exact h (k, g) (List.mem_cons.mpr (Or.inl rfl)) x hx2
        · simp only [List.mem_singleton] at hx2
          subst hx2
          exact hk.symm
      · exact h p (List.mem_cons_of_mem _ hp2) x hx
    · rw [show insertResult ((k, g) :: rest) r = (k, g) :: insertResult rest r from by
        simp [insertResult, if_neg hk]] at hp
      rcases List.mem_cons.mp hp with rfl | hp2
      · exact h (k, g) (List.mem_cons.mpr (Or.inl rfl)) x hx
      · exact ih (fun q hq => h q (List.mem_cons_of_mem _ hq)) p hp2 x hx

theorem titles_bookGroupsGo : ∀ (rs : List SearchResult)
    (acc : List (String × List SearchResult)),
    (∀ p ∈ acc, ∀ x ∈ p.2, x.item.bookTitle = p.1) →
    ∀ p ∈ bookGroupsGo rs acc, ∀ x ∈ p.2, x.item.bookTitle = p.1 := by
  intro rs
  induction rs with
  | nil => intro acc h; exact h
  | cons r rs ih =>
    intro acc h
    exact ih _ (titles_insert acc r h)

/-- Every chunk stored in a group of `bookGroups` carries that group's
book title. -/
theorem titles_bookGroups (raw : List SearchResult) :
    ∀ p ∈ bookGroups raw, ∀ x ∈ p.2, x.item.bookTitle = p.1 :=
  titles_bookGroupsGo raw [] (by simp)

theorem count_titles_le (u1 u2 u3 x t : String) (h12 : u1 ≠ u2) (h13 : u1 ≠ u3)
    (h23 : u2 ≠ u3) (hx : x = u2 ∨ x = u3) :
    List.count t [u1, u2, u3, u1, x] ≤ 3 := by
  rcases hx with rfl | rfl
  · by_cases e1 : u1 = t <;> by_cases e2 : x = t <;> by_cases e3 : u3 = t <;>
      simp_all [List.count_cons]
  · by_cases e1 : u1 = t <;> by_cases e2 : u2 = t <;> by_cases e3 : x = t <;>
      simp_all [List.count_cons]

theorem diversifyGo_step_stop2 (topK n fuel0 fuel : Nat)
    (groups : List (String × List SearchResult)) (books : List String) (v acc : Nat)
    (hf : fuel0 = fuel + 1) (h : ¬(acc < topK ∧ acc < n ∧ books ≠ [])) :
    diversifyGo topK n fuel0 groups books v acc = [] := by
  subst hf
  exact diversifyGo_step_stop topK n fuel groups books v acc h

theorem diversifyGo_step_exhaust2 (topK n fuel0 fuel : Nat)
    (groups : List (String × List SearchResult)) (books : List String) (v acc : Nat)
    (hf : fuel0 = fuel + 1) (h : acc < topK ∧ acc < n ∧ books ≠ []) (c : SearchResult)
    (hlook : lookupGroup (books.getD (v % books.length) "") groups = [c]) :
    diversifyGo topK n fuel0 groups books v acc =
      c :: diversifyGo topK n fuel
        (popGroup (books.getD (v % books.length) "") groups)
        (books.eraseIdx (v % books.length)) v (acc + 1) := by
  subst hf
  exact diversifyGo_step_exhaust topK n fuel groups books v acc h c hlook

theorem diversifyGo_step_advance2 (topK n fuel0 fuel : Nat)
    (groups : List (String × List SearchResult)) (books : List String) (v acc : Nat)
    (hf : fuel0 = fuel + 1) (h : acc < topK ∧ acc < n ∧ books ≠ []) (c : SearchResult)
    (gs : List SearchResult)
    (hlook : lookupGroup (books.getD (v % books.length) "") groups = c :: gs)
    (hgs : gs ≠ []) :
    diversifyGo topK n fuel0 groups books v acc =
      c :: diversifyGo topK n fuel
        (popGroup (books.getD (v % books.length) "") groups)
        books (v + 1) (acc + 1) := by
  subst hf
  exact diversifyGo_step_advance topK n fuel groups books v acc h c gs hlook hgs

/-- **C6.**  Over a corpus of 3 books whose raw over-fetched results all
contain at least 2 chunks per book, `retrieveDiverse(query, 5)` returns at
most `ceil(5/3)+1 = 3` chunks from any single book (in fact at most 2: the
first rotation takes one chunk of each of the 3 books, and the remaining
2 picks land on 2 distinct books). -/
theorem C6_theorem (raw : List SearchResult)
    (h3 : ((bookGroups raw).map Prod.fst).length = 3)
    (h2 : ∀ p ∈ bookGroups raw, 2 ≤ p.2.length) :
    ∀ t : String,
      ((retrieveDiverseBookKnowledge raw 5).map (fun r => r.item.bookTitle)).count t ≤ 3 := by
  intro t
  have hlen3 := h3
  rw [List.length_map] at hlen3
  obtain ⟨p1, p2, p3, hG⟩ := List.length_eq_three.mp hlen3
  obtain ⟨t1, g1⟩ := p1
  obtain ⟨t2, g2⟩ := p2
  obtain ⟨t3, g3⟩ := p3
  have hs1 : 2 ≤ g1.length := h2 (t1, g1) (by rw [hG]; simp)
  have hs2 : 2 ≤ g2.length := h2 (t2, g2) (by rw [hG]; simp)
  have hs3 : 2 ≤ g3.length := h2 (t3, g3) (by rw [hG]; simp)
  obtain ⟨a1, a2, g1r, hg1⟩ : ∃ a b rest, g1 = a :: b :: rest := by
    cases g1 with
    | nil => simp at hs1
    | cons a gg =>
      cases gg with
      | nil => simp at hs1
      | cons b rest => exact ⟨a, b, rest, rfl⟩
  obtain ⟨b1, b2, g2r, hg2⟩ : ∃ a b rest, g2 = a :: b :: rest := by
    cases g2 with
    | nil => simp at hs2
    | cons a gg =>
      cases gg with
      | nil => simp at hs2
      | cons b rest => exact ⟨a, b, rest, rfl⟩
  obtain ⟨c1, c2, g3r, hg3⟩ : ∃ a b rest, g3 = a :: b :: rest := by
    cases g3 with
    | nil => simp at hs3
    | cons a gg =>
      cases gg with
      | nil => simp at hs3
      | cons b rest => exact ⟨a, b, rest, rfl⟩
  subst hg1
  subst hg2
  subst hg3
  have hnd := keys_bookGroups_nodup raw
  rw [hG] at hnd
  simp only [List.map_cons, List.map_nil] at hnd
  have h12 : t1 ≠ t2 := by
    intro h
    exact (List.nodup_cons.mp hnd).1 (by simp [h])
  have h13 : t1 ≠ t3 := by
    intro h
    exact (List.nodup_cons.mp hnd).1 (by simp [h])
  have h23 : t2 ≠ t3 := by
    intro h
    exact (List.nodup_cons.mp (List.nodup_cons.mp hnd).2).1 (by simp [h])
  have hta1 : a1.item.bookTitle = t1 :=
    titles_bookGroups raw (t1, a1 :: a2 :: g1r) (by rw [hG]; simp) a1 (by simp)
  have hta2 : a2.item.bookTitle = t1 :=
    titles_bookGroups raw (t1, a1 :: a2 :: g1r) (by rw [hG]; simp) a2 (by simp)
  have htb1 : b1.item.bookTitle = t2 :=
    titles_bookGroups raw (t2, b1 :: b2 :: g2r) (by rw [hG]; simp) b1 (by simp)
  have htb2 : b2.item.bookTitle = t2 :=
    titles_bookGroups raw (t2, b1 :: b2 :: g2r) (by rw [hG]; simp) b2 (by simp)
  have htc1 : c1.item.bookTitle = t3 :=
    titles_bookGroups raw (t3, c1 :: c2 :: g3r) (by rw [hG]; simp) c1 (by simp)
  have htc2 : c2.item.bookTitle = t3 :=
    titles_bookGroups raw (t3, c1 :: c2 :: g3r) (by rw [hG]; simp) c2 (by simp)
  have hsum := sizes_bookGroups raw
  rw [hG] at hsum
  simp only [List.map_cons, List.map_nil, List.sum_cons, List.sum_nil,
    List.length_cons] at hsum
  obtain ⟨m, hm⟩ : ∃ m, raw.length = m + 6 := ⟨raw.length - 6, by omega⟩
  have hstart : retrieveDiverseBookKnowledge raw 5 =
      diversifyGo 5 (m + 6) ((m + 9) + 1)
        [(t1, a1 :: a2 :: g1r), (t2, b1 :: b2 :: g2r), (t3, c1 :: c2 :: g3r)]
        [t1, t2, t3] 0 0 := by
    unfold retrieveDiverseBookKnowledge
    rw [hG, hm]
    rfl
  rw [hstart]
  rw [diversifyGo_step_advance 5 (m + 6) (m + 9)
    [(t1, a1 :: a2 :: g1r), (t2, b1 :: b2 :: g2r), (t3, c1 :: c2 :: g3r)]
    [t1, t2, t3] 0 0 ⟨by omega, by omega, by simp⟩ a1 (a2 :: g1r)
    (by simp [lookupGroup]) (by simp)]
  simp only [Nat.reduceAdd]
  rw [show ([t1, t2, t3].getD (0 % [t1, t2, t3].length) "") = t1 from rfl]
  rw [show popGroup t1
      [(t1, a1 :: a2 :: g1r), (t2, b1 :: b2 :: g2r), (t3, c1 :: c2 :: g3r)] =
      [(t1, a2 :: g1r), (t2, b1 :: b2 :: g2r), (t3, c1 :: c2 :: g3r)] from by
    simp [popGroup]]
  rw [diversifyGo_step_advance2 5 (m + 6) (m + 9) (m + 8)
    [(t1, a2 :: g1r), (t2, b1 :: b2 :: g2r), (t3, c1 :: c2 :: g3r)]
    [t1, t2, t3] 1 1 (by omega) ⟨by omega, by omega, by simp⟩ b1 (b2 :: g2r)
    (by simp [lookupGroup, h12]) (by simp)]
  simp only [Nat.reduceAdd]
  rw [show ([t1, t2, t3].getD (1 % [t1, t2, t3].length) "") = t2 from rfl]
  rw [show popGroup t2
      [(t1, a2 :: g1r), (t2, b1 :: b2 :: g2r), (t3, c1 :: c2 :: g3r)] =
      [(t1, a2 :: g1r), (t2, b2 :: g2r), (t3, c1 :: c2 :: g3r)] from by
    simp [popGroup, h12]]
  rw [diversifyGo_step_advance2 5 (m + 6) (m + 8) (m + 7)
    [(t1, a2 :: g1r), (t2, b2 :: g2r), (t3, c1 :: c2 :: g3r)]
    [t1, t2, t3] 2 2 (by omega) ⟨by omega, by omega, by simp⟩ c1 (c2 :: g3r)
    (by simp [lookupGroup, h13, h23]) (by simp)]
  simp only [Nat.reduceAdd]
  rw [show ([t1, t2, t3].getD (2 % [t1, t2, t3].length) "") = t3 from rfl]
  rw [show popGroup t3
      [(t1, a2 :: g1r), (t2, b2 :: g2r), (t3, c1 :: c2 :: g3r)] =
      [(t1, a2 :: g1r), (t2, b2 :: g2r), (t3, c2 :: g3r)] from by
    simp [popGroup, h13, h23]]
  cases g1r with
  | nil =>
    rw [diversifyGo_step_exhaust2 5 (m + 6) (m + 7) (m + 6)
      [(t1, [a2]), (t2, b2 :: g2r), (t3, c2 :: g3r)]
      [t1, t2, t3] 3 3 (by omega) ⟨by omega, by omega, by simp⟩ a2
      (by simp [lookupGroup])]
    simp only [Nat.reduceAdd]
    rw [show ([t1, t2, t3].getD (3 % [t1, t2, t3].length) "") = t1 from by simp]
    rw [show popGroup t1 [(t1, [a2]), (t2, b2 :: g2r), (t3, c2 :: g3r)] =
        [(t1, ([] : List SearchResult)), (t2, b2 :: g2r), (t3, c2 :: g3r)] from by
      simp [popGroup]]
    rw [show ([t1, t2, t3].eraseIdx (3 % [t1, t2, t3].length)) = [t2, t3] from by simp]
    cases g3r with
    | nil =>
      rw [diversifyGo_step_exhaust2 5 (m + 6) (m + 6) (m + 5)
        [(t1, ([] : List SearchResult)), (t2, b2 :: g2r), (t3, [c2])]
        [t2, t3] 3 4 (by omega) ⟨by omega, by omega, by simp⟩ c2
        (by simp [lookupGroup, h13, h23])]
      simp only [Nat.reduceAdd]
      rw [diversifyGo_step_stop2 5 (m + 6) (m + 5) (m + 4) _ _ 3 5 (by omega)
        (fun hcon => absurd hcon.1 (by omega))]
      simp only [List.map_cons, List.map_nil, hta1, htb1, htc1, hta2, htc2]
      exact count_titles_le t1 t2 t3 t3 t h12 h13 h23 (Or.inr rfl)
    | cons z zs =>
      rw [diversifyGo_step_advance2 5 (m + 6) (m + 6) (m + 5)
        [(t1, ([] : List SearchResult)), (t2, b2 :: g2r), (t3, c2 :: z :: zs)]
        [t2, t3] 3 4 (by omega) ⟨by omega, by omega, by simp⟩ c2 (z :: zs)
        (by simp [lookupGroup, h13, h23]) (by simp)]
      simp only [Nat.reduceAdd]
      rw [diversifyGo_step_stop2 5 (m + 6) (m + 5) (m + 4) _ _ 4 5 (by omega)
        (fun hcon => absurd hcon.1 (by omega))]
      simp only [List.map_cons, List.map_nil, hta1, htb1, htc1, hta2, htc2]
      exact count_titles_le t1 t2 t3 t3 t h12 h13 h23 (Or.inr rfl)
  | cons x xs =>
    rw [diversifyGo_step_advance2 5 (m + 6) (m + 7) (m + 6)
      [(t1, a2 :: x :: xs), (t2, b2 :: g2r), (t3, c2 :: g3r)]
      [t1, t2, t3] 3 3 (by omega) ⟨by omega, by omega, by simp⟩ a2 (x :: xs)
      (by simp [lookupGroup]) (by simp)]
    simp only [Nat.reduceAdd]
    rw [show ([t1, t2, t3].getD (3 % [t1, t2, t3].length) "") = t1 from by simp]
    rw [show popGroup t1 [(t1, a2 :: x :: xs), (t2, b2 :: g2r), (t3, c2 :: g3r)] =
        [(t1, x :: xs), (t2, b2 :: g2r), (t3, c2 :: g3r)] from by
      simp [popGroup]]
    cases g2r with
    | nil =>
      rw [diversifyGo_step_exhaust2 5 (m + 6) (m + 6) (m + 5)
        [(t1, x :: xs), (t2, [b2]), (t3, c2 :: g3r)]
        [t1, t2, t3] 4 4 (by omega) ⟨by omega, by omega, by simp⟩ b2
        (by simp [lookupGroup, h12])]
      simp only [Nat.reduceAdd]
      rw [diversifyGo_step_stop2 5 (m + 6) (m + 5) (m + 4) _ _ 4 5 (by omega)
        (fun hcon => absurd hcon.1 (by omega))]
      simp only [List.map_cons, List.map_nil, hta1, htb1, htc1, hta2, htb2]
      exact count_titles_le t1 t2 t3 t2 t h12 h13 h23 (Or.inl rfl)
    | cons w ws =>
      rw [diversifyGo_step_advance2 5 (m + 6) (m + 6) (m + 5)
        [(t1, x :: xs), (t2, b2 :: w :: ws), (t3, c2 :: g3r)]
        [t1, t2, t3] 4 4 (by omega) ⟨by omega, by omega, by simp⟩ b2 (w :: ws)
        (by simp [lookupGroup, h12]) (by simp)]
      simp only [Nat.reduceAdd]
      rw [diversifyGo_step_stop2 5 (m + 6) (m + 5) (m + 4) _ _ 5 5 (by omega)
        (fun hcon => absurd hcon.1 (by omega))]
      simp only [List.map_cons, List.map_nil, hta1, htb1, htc1, hta2, htb2]
      exact count_titles_le t1 t2 t3 t2 t h12 h13 h23 (Or.inl rfl)

/-- **C6, witness.**  `rawC5` has 3 books with 3, 3, and 2 chunks; the
per-book cap holds at the concrete title "A". -/
theorem C6_witness :
    ((bookGroups rawC5).map Prod.fst).length = 3 ∧
    (∀ p ∈ bookGroups rawC5, 2 ≤ p.2.length) ∧
    ((retrieveDiverseBookKnowledge rawC5 5).map (fun r => r.item.bookTitle)).count "A" ≤ 3 :=
  ⟨by with_unfolding_all decide, by with_unfolding_all decide,
   C6_theorem rawC5 (by with_unfolding_all decide) (by with_unfolding_all decide) "A"⟩

end Cuepid
